import Mathlib

/-!
# file-disk: chunk-overlay engine, read plan and range builder — verification

Shallow embedding of the `file-disk` library (`src/diskchunk.ts`,
`src/index.ts`, `src/interval-intersection.ts`, `src/mapped-ranges.ts`,
`src/blockmap.ts`).  Byte offsets and interval endpoints are modelled as `Int`
(JavaScript numbers used for exact integer arithmetic, where differences such
as `start - 1` may be negative); buffers are modelled as `List Nat` of byte
values.
-/

/-- Model of `interval-intersection.ts`: `type Interval = [number, number]`, a closed
integer interval. -/
abbrev Ivl := Int × Int

/-- Model of `intervalIntersection(a, b)`: `[max(a[0],b[0]), min(a[1],b[1])]`, or
`null` when that is empty. -/
def intervalIntersection (a b : Ivl) : Option Ivl :=
  let s := max a.1 b.1
  let e := min a.2 b.2
  if s > e then none else some (s, e)

/-- Model of `diskchunk.ts`: a `DiskChunk` is a closed byte range of a disk.
`buffer s bytes` is a `BufferDiskChunk` whose content is `bytes` and whose
`end` is `s + bytes.length - 1`; `discard s e` is a `DiscardDiskChunk`
covering `[s, e]` (constructed in the source as
`DiscardDiskChunk(offset, length)` with `e = offset + length - 1`). -/
inductive DiskChunk : Type where
  | buffer (start : Int) (bytes : List Nat)
  | discard (start : Int) (endPos : Int)
deriving DecidableEq, Repr

namespace DiskChunk

/-- Model of `DiskChunk.start`. -/
def start : DiskChunk → Int
  | .buffer s _ => s
  | .discard s _ => s

/-- Model of `DiskChunk.end` (the position of the last byte, included).  For a
`BufferDiskChunk` the constructor sets `end = offset + buffer.length - 1`. -/
def endPos : DiskChunk → Int
  | .buffer s bytes => s + bytes.length - 1
  | .discard _ e => e

/-- Model of `chunk instanceof DiscardDiskChunk`. -/
def isDiscard : DiskChunk → Bool
  | .buffer _ _ => false
  | .discard _ _ => true

/-- Model of `DiskChunk.interval()`. -/
def interval (c : DiskChunk) : Ivl := (c.start, c.endPos)

/-- Model of `DiskChunk.intersection(other)`. -/
def intersection (c other : DiskChunk) : Option Ivl :=
  intervalIntersection c.interval other.interval

/-- Model of `DiskChunk.intersects(other)`. -/
def intersects (c other : DiskChunk) : Bool :=
  (c.intersection other).isSome

/-- Model of `DiskChunk.includedIn(other)`:
`this.start >= other.start && this.end <= other.end`. -/
def includedIn (c other : DiskChunk) : Bool :=
  decide (other.start ≤ c.start) && decide (c.endPos ≤ other.endPos)

/-- Model of `slice(start, end)`, with `start`/`end` relative to the disk.  For a
`BufferDiskChunk` this is
`buffer.slice(start - this.start, start - this.start + end - start + 1)`
(`Buffer.slice` clamps at the buffer's length, as `drop`/`take` do); for a
`DiscardDiskChunk` it is `DiscardDiskChunk(start, end - start + 1)`. -/
def slice : DiskChunk → Int → Int → DiskChunk
  | .buffer bs bytes, s, e =>
      .buffer s ((bytes.drop (s - bs).toNat).take (e - s + 1).toNat)
  | .discard _ _, s, e => .discard s e

/-- Model of `DiskChunk.data()`: the stored bytes for a `BufferDiskChunk`, a zero
filled buffer of length `end - start + 1` for a `DiscardDiskChunk`. -/
def data : DiskChunk → List Nat
  | .buffer _ bytes => bytes
  | .discard s e => List.replicate (e - s + 1).toNat 0

/-- Model of `DiskChunk.cut(other)`: the 0–2 parts of `self` not covered by `other`.
The source throws when the chunks do not intersect; that branch is modelled
as `[]` and is unreachable from `insertDiskChunk`, which tests
`intersects` first. -/
def cut (c other : DiskChunk) : List DiskChunk :=
  match c.intersection other with
  | none => []
  | some (i0, i1) =>
      (if i0 > c.start then [c.slice c.start (i0 - 1)] else []) ++
      (if c.endPos > i1 then [c.slice (i1 + 1) c.endPos] else [])

end DiskChunk

/-- Insert position: `knownChunks.splice(insertAt, 0, chunk)`.  Like
`Array.prototype.splice`, an index past the end appends. -/
def listInsertAt : Nat → DiskChunk → List DiskChunk → List DiskChunk
  | 0, c, l => c :: l
  | _ + 1, c, [] => [c]
  | n + 1, c, x :: xs => x :: listInsertAt n c xs

/-- The scanning loop of `Disk.insertDiskChunk` (`index.ts`).  The loop walks
the sorted chunk list left to right keeping `insertAt` (the index at which
`chunk` would keep the list sorted), breaking at the first chunk that starts
after `chunk.end`, skipping non-intersecting chunks, deleting chunks included
in `chunk` and replacing partially overlapping chunks by `other.cut(chunk)`.
`accLen` is the index of the current element in the mutated array (the number
of elements emitted so far) and `ia` the current value of `insertAt`; the
function returns the new array and the final `insertAt`. -/
def insertScan (c : DiskChunk) : List DiskChunk → Nat → Nat → List DiskChunk × Nat
  | [], _, ia => ([], ia)
  | other :: rest, accLen, ia =>
      if c.endPos < other.start then (other :: rest, ia)
      else
        let ia' := if other.start < c.start then accLen + 1 else accLen
        if c.intersects other = false then
          let r := insertScan c rest (accLen + 1) ia'
          (other :: r.1, r.2)
        else if other.includedIn c then
          insertScan c rest accLen ia'
        else
          let newChunks := other.cut c
          let r := insertScan c rest (accLen + newChunks.length) ia'
          (newChunks ++ r.1, r.2)

/-- Model of `Disk.insertDiskChunk(chunk, insert)`: rejects chunks with
`chunk.start < 0 || chunk.end > capacity`, otherwise runs the scan and, when
`insert` is true, splices `chunk` in at `insertAt`. -/
def insertDiskChunk (l : List DiskChunk) (c : DiskChunk) (insert : Bool)
    (capacity : Int) : List DiskChunk :=
  if c.start < 0 ∨ capacity < c.endPos then l
  else
    let r := insertScan c l 0 0
    if insert then listInsertAt r.2 c r.1 else r.1

/-- A step of a read plan (`type ReadPlan = Array<Ivl | DiskChunk>`):
either a physical-read gap (a bare `Ivl`) or a known chunk. -/
inductive ReadStep : Type where
  | gap (i : Ivl)
  | known (c : DiskChunk)
deriving DecidableEq, Repr

/-- The interval of addresses a `ReadStep` covers. -/
def ReadStep.stepInterval : ReadStep → Ivl
  | .gap i => i
  | .known c => c.interval

/-- The gap-filling loop of `Disk.createReadPlan`: walk the sliced
intersections in order, emitting a gap before each chunk that does not start
at the running offset, and a trailing gap after the last chunk when the
requested end extends past it. -/
def planLoop (e : Int) : Int → List DiskChunk → List ReadStep
  | _, [] => []
  | offset, [c] =>
      (if offset < c.start then [.gap (offset, c.start - 1)] else []) ++
      .known c ::
      (if c.endPos < e then [.gap (c.endPos + 1, e)] else [])
  | offset, c :: c' :: rest =>
      (if offset < c.start then [.gap (offset, c.start - 1)] else []) ++
      .known c :: planLoop e (c.endPos + 1) (c' :: rest)

/-- Model of `Disk.createReadPlan(offset, length)`: intersect the requested interval
`[offset, offset + length - 1]` with the known chunks (discard chunks are
excluded when `discardIsZero` is false), slice each intersecting chunk to the
intersection, and interleave physical-read gaps; with no intersections the
plan is the single gap covering the whole request. -/
def createReadPlan (knownChunks : List DiskChunk) (discardIsZero : Bool)
    (offset length : Int) : List ReadStep :=
  let e := offset + length - 1
  let interval : Ivl := (offset, e)
  let chunks := if discardIsZero then knownChunks
    else knownChunks.filter (fun c => !c.isDiscard)
  let intersections := chunks.filterMap
    (fun c => (intervalIntersection interval c.interval).map
      (fun i => c.slice i.1 i.2))
  if intersections.isEmpty then [.gap interval]
  else planLoop e offset intersections

/-- Write `src` into `target` starting at (possibly negative, clamped)
index `s`, keeping `target`'s length — the effect of
`src.copy(target, s, 0, src.length)` (`Buffer.copy` never writes outside the
target). -/
def bufWrite : List Nat → Int → List Nat → List Nat
  | [], _, _ => []
  | t :: ts, s, src =>
      (if s ≤ 0 ∧ 0 < s + (src.length : Int) then src.getD (-s).toNat 0 else t)
      :: bufWrite ts (s - 1) src

/-- The bytes a physical read of `length` bytes at `fileOffset` obtains from
a `BufferDisk` whose backing buffer is `physical`:
`this.buffer.copy(buffer, bufferOffset, fileOffset, fileOffset + length)`
copies the clamped range (the `fileOffset < 0` case would throw in Node and
is modelled as the empty read). -/
def physRead (physical : List Nat) (fileOffset length : Int) : List Nat :=
  if fileOffset < 0 then []
  else (physical.drop fileOffset.toNat).take length.toNat

/-- The façade state of a `BufferDisk`: the four mode flags, the overlay
`knownChunks` and the backing buffer (whose length is the capacity). -/
structure DiskState : Type where
  readOnly : Bool
  recordWrites : Bool
  recordReads : Bool
  discardIsZero : Bool
  knownChunks : List DiskChunk
  physical : List Nat
deriving DecidableEq, Repr

/-- Model of `getCapacity()` of a `BufferDisk`: the backing buffer's length. -/
def DiskState.capacity (st : DiskState) : Int := (st.physical.length : Int)

/-- State of `Disk.readAccordingToPlan`'s loop: the destination buffer, the
running buffer offset (the eventual `bytesRead`), the overlay (mutated when
`recordReads` holds) and the log of `_read(fileOffset, length)` calls issued
to the backend. -/
structure ExecState : Type where
  buffer : List Nat
  offset : Int
  overlay : List DiskChunk
  calls : List (Int × Int)
deriving DecidableEq, Repr

/-- One iteration of `Disk.readAccordingToPlan`: a known chunk is
materialised and copied (`length = min(data.length, buffer.length - offset)`);
a gap issues `_read(buffer, offset, length, start)` against the physical
medium and, when `recordReads`, inserts the freshly read bytes as a
`BufferDiskChunk`. -/
def execStep (recordReads : Bool) (capacity : Int) (physical : List Nat)
    (es : ExecState) : ReadStep → ExecState
  | .known c =>
      let d := c.data
      let len := min (d.length : Int) ((es.buffer.length : Int) - es.offset)
      { es with
        buffer := bufWrite es.buffer es.offset (d.take len.toNat)
        offset := es.offset + len }
  | .gap (a, b) =>
      let len := b - a + 1
      let buffer' := bufWrite es.buffer es.offset (physRead physical a len)
      let overlay' :=
        if recordReads then
          insertDiskChunk es.overlay
            (.buffer a ((buffer'.drop es.offset.toNat).take len.toNat))
            true capacity
        else es.overlay
      { buffer := buffer'
        offset := es.offset + len
        overlay := overlay'
        calls := es.calls ++ [(a, len)] }

/-- Model of `Disk.readAccordingToPlan(buffer, plan)`. -/
def readAccordingToPlan (st : DiskState) (buffer : List Nat)
    (plan : List ReadStep) : ExecState :=
  plan.foldl (execStep st.recordReads st.capacity st.physical)
    ⟨buffer, 0, st.knownChunks, []⟩

/-- Model of `Disk.read(buffer, _bufferOffset, length, fileOffset)`: build the plan
and execute it.  The second argument is named `_bufferOffset` in the source
and is never used. -/
def Disk.read (st : DiskState) (buffer : List Nat) (bufferOffset : Nat)
    (length fileOffset : Int) : ExecState :=
  let _ := bufferOffset
  readAccordingToPlan st buffer
    (createReadPlan st.knownChunks st.discardIsZero fileOffset length)

/-- Model of `Disk.write(buffer, bufferOffset, length, fileOffset)`: with
`recordWrites` insert `BufferDiskChunk(buffer.slice(bufferOffset,
bufferOffset + length), fileOffset)`; otherwise insert (with
`insert = false`) a synthetic `DiscardDiskChunk` over the written range to
evict stale discards.  A read-only disk acknowledges `length` bytes without
touching the medium; otherwise `_write` copies into the backing buffer and
reports the number of bytes actually copied. -/
def Disk.write (st : DiskState) (buffer : List Nat) (bufferOffset : Nat)
    (length fileOffset : Int) : DiskState × Int :=
  let src := (buffer.drop bufferOffset).take length.toNat
  let overlay' :=
    if st.recordWrites then
      insertDiskChunk st.knownChunks (.buffer fileOffset src) true st.capacity
    else
      insertDiskChunk st.knownChunks
        (.discard fileOffset (fileOffset + length - 1)) false st.capacity
  if st.readOnly then ({ st with knownChunks := overlay' }, length)
  else
    let st' := { st with knownChunks := overlay' }
    ({ st' with physical := bufWrite st.physical fileOffset src },
     min (src.length : Int) (max 0 ((st.physical.length : Int) - fileOffset)))

/-- Model of `Disk.discard(offset, length)`: insert
`DiscardDiskChunk(offset, length)`. -/
def Disk.discard (st : DiskState) (offset length : Int) : DiskState :=
  { st with
    knownChunks := insertDiskChunk st.knownChunks
      (.discard offset (offset + length - 1)) true st.capacity }

/-- Model of `Disk.getDiscardedChunks()`. -/
def getDiscardedChunks (l : List DiskChunk) : List DiskChunk :=
  l.filter (fun c => c.isDiscard)

/-- Model of `mapped-ranges.ts`, `notDiscardedIntervalsIterator`: the complement of
the discarded chunks, walking them in order from `lastStart = 0` and closing
with `[lastStart, capacity - 1]` when `lastStart < capacity`. -/
def notDiscardedIntervalsIterator : List DiskChunk → Int → Int → List Ivl
  | [], lastStart, capacity =>
      if lastStart < capacity then [(lastStart, capacity - 1)] else []
  | c :: rest, lastStart, capacity =>
      (lastStart, c.start - 1) :: notDiscardedIntervalsIterator rest (c.endPos + 1) capacity

/-- Model of `blockmap.ts`, `getNotDiscardedChunks`: same walk as
`notDiscardedIntervalsIterator`, pushing into an array. -/
def getNotDiscardedChunks (disk : List DiskChunk) (capacity : Int) : List Ivl :=
  go (getDiscardedChunks disk) 0
where
  go : List DiskChunk → Int → List Ivl
    | [], lastStart =>
        if lastStart < capacity then [(lastStart, capacity - 1)] else []
    | c :: rest, lastStart => (lastStart, c.start - 1) :: go rest (c.endPos + 1)

/-- Inner loop of `mergeIntervals` (`mapped-ranges.ts`) / `mergeBlocks`
(`blockmap.ts`): merge the next interval into `current` unless it starts
after `current[1] + 1`. -/
def mergeGo (current : Ivl) : List Ivl → List Ivl
  | [] => [current]
  | i :: rest =>
      if current.2 + 1 < i.1 then current :: mergeGo i rest
      else mergeGo (current.1, i.2) rest

/-- Model of `mergeIntervals` / `mergeBlocks`: merge adjacent and overlapping
intervals. -/
def mergeIntervals : List Ivl → List Ivl
  | [] => []
  | i :: rest => mergeGo i rest

/-- Model of `mapped-ranges.ts`, `Range`: `{ offset, length }`. -/
structure MappedRange : Type where
  offset : Int
  length : Int
deriving DecidableEq, Repr

/-- Model of `mapped-ranges.ts`, `getRanges(disk, blockSize)`: complement of the
discarded chunks, quantised to block indices with `Math.floor`, merged, and
converted back to byte `{offset, length}` ranges. -/
def getRanges (knownChunks : List DiskChunk) (capacity blockSize : Int) :
    List MappedRange :=
  let intervals := notDiscardedIntervalsIterator (getDiscardedChunks knownChunks) 0 capacity
  let blockSized := intervals.map
    (fun i => (Int.fdiv i.1 blockSize, Int.fdiv i.2 blockSize))
  let merged := mergeIntervals blockSized
  merged.map (fun i => ⟨i.1 * blockSize, (i.2 - i.1 + 1) * blockSize⟩)

/-- Model of `Disk.getRanges(blockSize)`. -/
def diskGetRanges (st : DiskState) (blockSize : Int) : List MappedRange :=
  getRanges st.knownChunks st.capacity blockSize

/-- Model of `[].reduce((a, b) => a + b)` with no initial value: `none` models the
`TypeError` JavaScript throws on an empty array. -/
def reduceAdd : List Int → Option Int
  | [] => none
  | x :: rest => some (rest.foldl (· + ·) x)

/-- Model of `blockmap.ts`, the `mappedBlockCount` computation of `getBlockMap`:
quantise the complement to block indices, merge, and sum the block counts of
the merged runs with an initial-value-less `reduce`. -/
def mappedBlockCount (knownChunks : List DiskChunk) (capacity blockSize : Int) :
    Option Int :=
  let chunks := getNotDiscardedChunks knownChunks capacity
  let blocks := chunks.map
    (fun i => (Int.fdiv i.1 blockSize, Int.fdiv i.2 blockSize))
  let merged := mergeIntervals blocks
  reduceAdd (merged.map (fun b => b.2 - b.1 + 1))

/-- A public operation driven against the façade (the operations of the
overlay invariant claim): `Disk.write` or `Disk.discard`. -/
inductive DiskOp : Type where
  | write (buffer : List Nat) (bufferOffset : Nat) (length fileOffset : Int)
  | discard (offset length : Int)
deriving DecidableEq, Repr

/-- Apply one public operation to the disk state. -/
def applyOp (st : DiskState) : DiskOp → DiskState
  | .write b bo len fo => (Disk.write st b bo len fo).1
  | .discard o len => Disk.discard st o len

/-- Apply a sequence of public operations. -/
def applyOps (st : DiskState) (ops : List DiskOp) : DiskState :=
  ops.foldl applyOp st

/-! ## The overlay invariant -/

/-- A chunk spans at least one byte: `end >= start`. -/
def chunkWF (c : DiskChunk) : Prop := c.start ≤ c.endPos

instance (c : DiskChunk) : Decidable (chunkWF c) := by
  unfold chunkWF; infer_instance

/-- The overlay invariant, relative to a lower bound for the next start:
chunks are non-empty, sorted by `start`, and consecutive chunks are
separated (`end < next start`). -/
def overlayWFFrom : Int → List DiskChunk → Prop
  | _, [] => True
  | lb, c :: rest => lb ≤ c.start ∧ c.start ≤ c.endPos ∧ overlayWFFrom (c.endPos + 1) rest

instance instDecOverlayWFFrom : (lb : Int) → (l : List DiskChunk) →
    Decidable (overlayWFFrom lb l)
  | _, [] => .isTrue trivial
  | lb, c :: rest =>
      have : Decidable (overlayWFFrom (c.endPos + 1) rest) :=
        instDecOverlayWFFrom _ rest
      by unfold overlayWFFrom; infer_instance

/-- The overlay invariant: `knownChunks` is a sorted list of non-empty,
pairwise non-overlapping chunks. -/
def OverlayWF : List DiskChunk → Prop
  | [] => True
  | c :: rest => overlayWFFrom c.start (c :: rest)

instance : (l : List DiskChunk) → Decidable (OverlayWF l)
  | [] => .isTrue trivial
  | _ :: _ => by unfold OverlayWF; infer_instance

/-- The scan examines no element: the list is empty or its first chunk
starts after `chunk.end` (the loop breaks immediately). -/
def noExam (c : DiskChunk) : List DiskChunk → Prop
  | [] => True
  | other :: _ => c.endPos < other.start

instance : ∀ (c : DiskChunk) (l : List DiskChunk), Decidable (noExam c l)
  | _, [] => .isTrue trivial
  | c, _ :: _ => by unfold noExam; infer_instance

/-- Number of chunks starting strictly before `c.start`. -/
def cntLt (c : DiskChunk) (l : List DiskChunk) : Nat :=
  (l.filter (fun x => decide (x.start < c.start))).length

/-- The operations of the invariant claim actually store a non-empty chunk:
a discard of positive length, or a write of positive length whose buffer
slice is non-empty. -/
def opWF : DiskOp → Prop
  | .write b bo len _ => 1 ≤ len ∧ bo < b.length
  | .discard _ len => 1 ≤ len

instance : (op : DiskOp) → Decidable (opWF op)
  | .write _ _ _ _ => by unfold opWF; infer_instance
  | .discard _ _ => by unfold opWF; infer_instance

/-- The overlay effect of one public operation, with the disk's capacity and
`recordWrites` flag passed as values (`Disk.write` / `Disk.discard`
restricted to `knownChunks`). -/
def overlayApplyOp (cap : Int) (rw : Bool) (l : List DiskChunk) :
    DiskOp → List DiskChunk
  | .write b bo len fo =>
      if rw then
        insertDiskChunk l (.buffer fo ((b.drop bo).take len.toNat)) true cap
      else
        insertDiskChunk l (.discard fo (fo + len - 1)) false cap
  | .discard o len => insertDiskChunk l (.discard o (o + len - 1)) true cap

/-- The overlay after a sequence of public operations. -/
def overlayApplyOps (cap : Int) (rw : Bool) (l : List DiskChunk)
    (ops : List DiskOp) : List DiskChunk :=
  ops.foldl (overlayApplyOp cap rw) l

/-- The 10240-byte disk of the overlapping-writes scenario: a read-only,
write-recording (copy-on-write) disk over 10240 zero bytes, with an empty
overlay. -/
def overlappingWritesDisk : DiskState :=
  ⟨true, true, false, true, [], List.replicate 10240 0⟩

/-- The operations the claim's text lists: discard the whole disk, write the
1-byte-repeated patterns at offsets 0, 4, 8 and 24 (8 bytes each), and a
2-byte write at offset 3. -/
def claimedWrites : List DiskOp :=
  [.discard 0 10240,
   .write (List.replicate 8 1) 0 8 0,
   .write (List.replicate 8 2) 0 8 4,
   .write (List.replicate 8 3) 0 8 8,
   .write (List.replicate 8 4) 0 8 24,
   .write (List.replicate 8 5) 0 2 3]

/-- The full overlapping-writes scenario of the test suite: the writes of
`claimedWrites` followed by 5 bytes at offset 2, 2 bytes at offset 30,
8 bytes at offset 14 and 8 bytes at offset 6. -/
def fullOverlappingWrites : List DiskOp :=
  claimedWrites ++
  [.write (List.replicate 8 6) 0 5 2,
   .write (List.replicate 8 7) 0 2 30,
   .write (List.replicate 8 8) 0 8 14,
   .write (List.replicate 8 9) 0 8 6]

/-- Predicate: the steps tile the closed interval `[a, b]` exactly: each step starts
where the previous ended plus one, steps are non-empty, and the last ends at
`b` (an empty list tiles an empty interval, `a = b + 1`). -/
def chainCovers : Int → Int → List Ivl → Prop
  | a, b, [] => a = b + 1
  | a, b, s :: rest => s.1 = a ∧ s.1 ≤ s.2 ∧ chainCovers (s.2 + 1) b rest

/-- The sliced intersections handed to `planLoop`: an ascending sequence of
non-empty chunks below `e`, starting at or after `b`. -/
def sliceChain (e : Int) : Int → List DiskChunk → Prop
  | _, [] => True
  | b, c :: rest =>
      b ≤ c.start ∧ c.start ≤ c.endPos ∧ c.endPos ≤ e ∧
      sliceChain e (c.endPos + 1) rest

theorem overlayWFFrom_mono {lb lb' : Int} {l : List DiskChunk}
    (hle : lb' ≤ lb) (h : overlayWFFrom lb l) : overlayWFFrom lb' l := by
  cases l with
  | nil => trivial
  | cons c rest =>
      obtain ⟨h1, h2, h3⟩ := h
      exact ⟨le_trans hle h1, h2, h3⟩

theorem overlayWFFrom_mem {lb : Int} {l : List DiskChunk} {x : DiskChunk}
    (h : overlayWFFrom lb l) (hx : x ∈ l) :
    lb ≤ x.start ∧ x.start ≤ x.endPos := by
  induction l generalizing lb with
  | nil => cases hx
  | cons c rest ih =>
      obtain ⟨h1, h2, h3⟩ := h
      rcases List.mem_cons.mp hx with rfl | hx'
      · exact ⟨h1, h2⟩
      · have := ih h3 hx'
        exact ⟨le_trans (by omega) this.1, this.2⟩

theorem overlayWF_of_from {lb : Int} {l : List DiskChunk}
    (h : overlayWFFrom lb l) : OverlayWF l := by
  cases l with
  | nil => trivial
  | cons c rest =>
      obtain ⟨_, h2, h3⟩ := h
      exact ⟨le_refl _, h2, h3⟩

theorem overlayWF_from (l : List DiskChunk) (h : OverlayWF l) :
    overlayWFFrom (match l with | [] => 0 | c :: _ => c.start) l := by
  cases l with
  | nil => trivial
  | cons c rest => exact h

/-! ## Interval and chunk lemmas -/

theorem inter_none_of_lt_left {a b : Ivl} (h : a.2 < b.1) :
    intervalIntersection a b = none := by
  unfold intervalIntersection
  rw [if_pos]; omega

theorem inter_none_of_lt_right {a b : Ivl} (h : b.2 < a.1) :
    intervalIntersection a b = none := by
  unfold intervalIntersection
  rw [if_pos]; omega

theorem inter_some_iff {a b : Ivl} {i : Ivl} :
    intervalIntersection a b = some i ↔
      (max a.1 b.1 ≤ min a.2 b.2 ∧ i = (max a.1 b.1, min a.2 b.2)) := by
  show (if max a.1 b.1 > min a.2 b.2 then none
    else some (max a.1 b.1, min a.2 b.2)) = some i ↔ _
  split
  · simp only [reduceCtorEq, false_iff]; omega
  · simp only [Option.some.injEq]
    constructor
    · intro h; exact ⟨by omega, h.symm⟩
    · intro h; exact h.2.symm

theorem inter_none_iff {a b : Ivl} :
    intervalIntersection a b = none ↔ min a.2 b.2 < max a.1 b.1 := by
  show (if max a.1 b.1 > min a.2 b.2 then none
    else some (max a.1 b.1, min a.2 b.2)) = none ↔ _
  split
  · simp only [true_iff]; omega
  · simp only [reduceCtorEq, false_iff]; omega

theorem intersects_false_iff {c x : DiskChunk} :
    c.intersects x = false ↔ intervalIntersection c.interval x.interval = none := by
  unfold DiskChunk.intersects DiskChunk.intersection
  cases intervalIntersection c.interval x.interval <;> simp

theorem includedIn_true_iff {c x : DiskChunk} :
    c.includedIn x = true ↔ x.start ≤ c.start ∧ c.endPos ≤ x.endPos := by
  unfold DiskChunk.includedIn
  simp

@[simp] theorem slice_start (c : DiskChunk) (s e : Int) :
    (c.slice s e).start = s := by
  cases c <;> rfl

theorem slice_endPos_le {c : DiskChunk} {s e : Int} (hse : s - 1 ≤ e) :
    (c.slice s e).endPos ≤ e := by
  cases c with
  | discard _ _ => simp [DiskChunk.slice, DiskChunk.endPos]
  | buffer bs bytes =>
      simp only [DiskChunk.slice, DiskChunk.endPos, List.length_take,
        List.length_drop]
      omega

theorem slice_buffer_bytes_exact {bs : Int} {bytes : List Nat} {s e : Int}
    (hs : bs ≤ s) (hse : s ≤ e) (he : e ≤ bs + bytes.length - 1) :
    ((bytes.drop (s - bs).toNat).take (e - s + 1).toNat).length = (e - s + 1).toNat := by
  simp only [List.length_take, List.length_drop]
  omega

theorem slice_endPos_exact {c : DiskChunk} {s e : Int} (hwf : chunkWF c)
    (hs : c.start ≤ s) (hse : s ≤ e) (he : e ≤ c.endPos) :
    (c.slice s e).endPos = e := by
  cases c with
  | discard _ _ => rfl
  | buffer bs bytes =>
      simp only [DiskChunk.start, DiskChunk.endPos] at hs he
      simp only [DiskChunk.slice, DiskChunk.endPos,
        slice_buffer_bytes_exact hs hse he]
      omega

theorem slice_chunkWF {c : DiskChunk} {s e : Int} (hwf : chunkWF c)
    (hs : c.start ≤ s) (hse : s ≤ e) (he : e ≤ c.endPos) :
    chunkWF (c.slice s e) := by
  unfold chunkWF
  rw [slice_start, slice_endPos_exact hwf hs hse he]
  exact hse

theorem slice_isDiscard (c : DiskChunk) (s e : Int) :
    (c.slice s e).isDiscard = c.isDiscard := by
  cases c <;> rfl

theorem overlayWFFrom_append {lb b : Int} {xs ys : List DiskChunk}
    (hxs : overlayWFFrom lb xs) (hys : overlayWFFrom b ys) (hlb : lb ≤ b)
    (hbd : ∀ x ∈ xs, x.endPos < b) : overlayWFFrom lb (xs ++ ys) := by
  induction xs generalizing lb with
  | nil => exact overlayWFFrom_mono hlb hys
  | cons x xs ih =>
      obtain ⟨h1, h2, h3⟩ := hxs
      refine ⟨h1, h2, ih h3 ?_ ?_⟩
      · have := hbd x (by simp)
        omega
      · intro y hy; exact hbd y (by simp [hy])

theorem overlayWFFrom_retarget {lb lb' : Int} {l : List DiskChunk}
    (h : overlayWFFrom lb l) (h' : ∀ x ∈ l, lb' ≤ x.start) :
    overlayWFFrom lb' l := by
  cases l with
  | nil => trivial
  | cons c rest =>
      obtain ⟨_, h2, h3⟩ := h
      exact ⟨h' c (by simp), h2, h3⟩

theorem cut_eq_of_none {c ch : DiskChunk} (h : c.intersection ch = none) :
    c.cut ch = [] := by
  unfold DiskChunk.cut; rw [h]

theorem cut_eq_of_some {c ch : DiskChunk} {i0 i1 : Int}
    (h : c.intersection ch = some (i0, i1)) :
    c.cut ch =
      (if i0 > c.start then [c.slice c.start (i0 - 1)] else []) ++
      (if c.endPos > i1 then [c.slice (i1 + 1) c.endPos] else []) := by
  unfold DiskChunk.cut; rw [h]

/-- The fragments `other.cut(chunk)` never intersect `chunk` (they are the
parts of `other` strictly outside the intersection). -/
theorem cut_not_intersect {c ch : DiskChunk} :
    ∀ x ∈ c.cut ch, intervalIntersection ch.interval x.interval = none := by
  intro x hx
  rcases hmi : c.intersection ch with _ | ⟨i0, i1⟩
  · rw [cut_eq_of_none hmi] at hx; cases hx
  · rw [cut_eq_of_some hmi] at hx
    obtain ⟨hle, hi⟩ := inter_some_iff.mp hmi
    have hi0 : i0 = max c.interval.1 ch.interval.1 := by
      have := congrArg Prod.fst hi; simpa using this
    have hi1 : i1 = min c.interval.2 ch.interval.2 := by
      have := congrArg Prod.snd hi; simpa using this
    simp only [DiskChunk.interval] at hi0 hi1 hle
    rcases List.mem_append.mp hx with hl | hr
    · by_cases hcond : i0 > c.start
      · rw [if_pos hcond] at hl
        simp only [List.mem_singleton] at hl
        subst hl
        apply inter_none_of_lt_right
        have hend := slice_endPos_le (c := c) (s := c.start) (e := i0 - 1)
          (by omega)
        show (c.slice c.start (i0 - 1)).endPos < ch.interval.1
        simp only [DiskChunk.interval]
        omega
      · rw [if_neg hcond] at hl; cases hl
    · by_cases hcond : c.endPos > i1
      · rw [if_pos hcond] at hr
        simp only [List.mem_singleton] at hr
        subst hr
        apply inter_none_of_lt_left
        show ch.interval.2 < (c.slice (i1 + 1) c.endPos).start
        simp only [DiskChunk.interval, slice_start]
        omega
      · rw [if_neg hcond] at hr; cases hr

/-- The fragments of `other.cut(chunk)` form a well-formed overlay segment
inside `other`'s own range. -/
theorem cut_wf {c ch : DiskChunk} (hc : chunkWF c) :
    overlayWFFrom c.start (c.cut ch) ∧ ∀ x ∈ c.cut ch, x.endPos ≤ c.endPos := by
  rcases hmi : c.intersection ch with _ | ⟨i0, i1⟩
  · rw [cut_eq_of_none hmi]
    exact ⟨trivial, by intro x hx; cases hx⟩
  · rw [cut_eq_of_some hmi]
    obtain ⟨hle, hi⟩ := inter_some_iff.mp hmi
    have hi0 : i0 = max c.interval.1 ch.interval.1 := by
      have := congrArg Prod.fst hi; simpa using this
    have hi1 : i1 = min c.interval.2 ch.interval.2 := by
      have := congrArg Prod.snd hi; simpa using this
    simp only [DiskChunk.interval] at hi0 hi1 hle
    have hcs_i0 : c.start ≤ i0 := by omega
    have hi1_ce : i1 ≤ c.endPos := by omega
    by_cases hl : i0 > c.start <;> by_cases hr : c.endPos > i1
    · rw [if_pos hl, if_pos hr]
      have hLend : (c.slice c.start (i0 - 1)).endPos = i0 - 1 :=
        slice_endPos_exact hc (le_refl _) (by omega) (by omega)
      have hRend : (c.slice (i1 + 1) c.endPos).endPos = c.endPos :=
        slice_endPos_exact hc (by omega) (by omega) (le_refl _)
      constructor
      · refine ⟨by rw [slice_start], ?_, ?_, ?_, trivial⟩
        · rw [slice_start, hLend]; omega
        · rw [hLend, slice_start]; omega
        · rw [slice_start, hRend]; omega
      · intro x hx
        rcases List.mem_append.mp hx with hx | hx <;>
          simp only [List.mem_singleton] at hx <;> subst hx
        · rw [hLend]; omega
        · rw [hRend]
    · rw [if_pos hl, if_neg hr]
      have hLend : (c.slice c.start (i0 - 1)).endPos = i0 - 1 :=
        slice_endPos_exact hc (le_refl _) (by omega) (by omega)
      constructor
      · exact ⟨by rw [slice_start], by rw [slice_start, hLend]; omega, trivial⟩
      · intro x hx
        simp only [List.append_nil, List.mem_singleton] at hx; subst hx
        rw [hLend]; omega
    · rw [if_neg hl, if_pos hr]
      have hRend : (c.slice (i1 + 1) c.endPos).endPos = c.endPos :=
        slice_endPos_exact hc (by omega) (by omega) (le_refl _)
      constructor
      · exact ⟨by rw [slice_start]; omega, by rw [slice_start, hRend]; omega,
          trivial⟩
      · intro x hx
        simp only [List.nil_append, List.mem_singleton] at hx; subst hx
        rw [hRend]
    · rw [if_neg hl, if_neg hr]
      exact ⟨trivial, by intro x hx; cases hx⟩

theorem chunk_inter_none_iff {c x : DiskChunk} :
    intervalIntersection c.interval x.interval = none ↔
      min c.endPos x.endPos < max c.start x.start := by
  rw [inter_none_iff]; simp [DiskChunk.interval]

theorem insertScan_cons (c other : DiskChunk) (rest : List DiskChunk)
    (a i : Nat) :
    insertScan c (other :: rest) a i =
      if c.endPos < other.start then (other :: rest, i)
      else if c.intersects other = false then
        (other :: (insertScan c rest (a + 1)
            (if other.start < c.start then a + 1 else a)).1,
         (insertScan c rest (a + 1)
            (if other.start < c.start then a + 1 else a)).2)
      else if other.includedIn c then
        insertScan c rest a (if other.start < c.start then a + 1 else a)
      else
        (other.cut c ++ (insertScan c rest (a + (other.cut c).length)
            (if other.start < c.start then a + 1 else a)).1,
         (insertScan c rest (a + (other.cut c).length)
            (if other.start < c.start then a + 1 else a)).2) := rfl

/-- The scan loop of `insertDiskChunk` leaves the overlay invariant intact. -/
theorem insertScan_wf {c : DiskChunk} :
    ∀ (l : List DiskChunk) (lb : Int) (a i : Nat), overlayWFFrom lb l →
    overlayWFFrom lb (insertScan c l a i).1 := by
  intro l
  induction l with
  | nil => intro lb a i _; exact trivial
  | cons other rest ih =>
      intro lb a i hwf
      obtain ⟨h1, h2, h3⟩ := hwf
      rw [insertScan_cons]
      by_cases hb : c.endPos < other.start
      · rw [if_pos hb]; exact ⟨h1, h2, h3⟩
      · rw [if_neg hb]
        by_cases hni : c.intersects other = false
        · rw [if_pos hni]; exact ⟨h1, h2, ih _ _ _ h3⟩
        · rw [if_neg hni]
          by_cases hinc : other.includedIn c
          · rw [if_pos hinc]
            exact overlayWFFrom_mono (by omega) (ih _ _ _ h3)
          · rw [if_neg hinc]
            have hcw := @cut_wf other c h2
            refine overlayWFFrom_append (overlayWFFrom_mono h1 hcw.1)
              (ih _ _ _ h3) (by omega) ?_
            intro x hx
            have := hcw.2 x hx
            omega

/-- No chunk surviving `insertScan` intersects the inserted chunk. -/
theorem insertScan_noint {c : DiskChunk} :
    ∀ (l : List DiskChunk) (lb : Int) (a i : Nat), overlayWFFrom lb l →
    ∀ x ∈ (insertScan c l a i).1,
      intervalIntersection c.interval x.interval = none := by
  intro l
  induction l with
  | nil => intro lb a i _ x hx; cases hx
  | cons other rest ih =>
      intro lb a i hwf x hx
      obtain ⟨h1, h2, h3⟩ := hwf
      rw [insertScan_cons] at hx
      by_cases hb : c.endPos < other.start
      · rw [if_pos hb] at hx
        rcases List.mem_cons.mp hx with rfl | hx'
        · exact inter_none_of_lt_left (by simpa [DiskChunk.interval] using hb)
        · have := overlayWFFrom_mem h3 hx'
          apply inter_none_of_lt_left
          show c.interval.2 < x.interval.1
          simp only [DiskChunk.interval]
          omega
      · rw [if_neg hb] at hx
        by_cases hni : c.intersects other = false
        · rw [if_pos hni] at hx
          rcases List.mem_cons.mp hx with rfl | hx'
          · exact intersects_false_iff.mp hni
          · exact ih _ _ _ h3 x hx'
        · rw [if_neg hni] at hx
          by_cases hinc : other.includedIn c
          · rw [if_pos hinc] at hx
            exact ih _ _ _ h3 x hx
          · rw [if_neg hinc] at hx
            rcases List.mem_append.mp hx with hx' | hx'
            · exact cut_not_intersect x hx'
            · exact ih _ _ _ h3 x hx'

theorem insertScan_noExam {c : DiskChunk} {l : List DiskChunk} {a i : Nat}
    (h : noExam c l) : insertScan c l a i = (l, i) := by
  cases l with
  | nil => rfl
  | cons other rest => rw [insertScan_cons, if_pos (show c.endPos < other.start from h)]

theorem noExam_bound {c : DiskChunk} {lb : Int} {l : List DiskChunk}
    (hwf : overlayWFFrom lb l) (h : noExam c l) :
    ∀ x ∈ l, c.endPos < x.start := by
  cases l with
  | nil => intro x hx; cases hx
  | cons y t =>
      intro x hx
      obtain ⟨_, h2, h3⟩ := hwf
      have := overlayWFFrom_mem (l := y :: t) ⟨le_refl _, h2, h3⟩ hx
      have hy : c.endPos < y.start := h
      omega

theorem cntLt_nil (c : DiskChunk) : cntLt c [] = 0 := rfl

theorem cntLt_cons (c x : DiskChunk) (l : List DiskChunk) :
    cntLt c (x :: l) = (if x.start < c.start then 1 else 0) + cntLt c l := by
  unfold cntLt
  rw [List.filter_cons]
  by_cases h : x.start < c.start
  · rw [if_pos (show decide (x.start < c.start) = true by simpa using h),
      if_pos h, List.length_cons]
    omega
  · rw [if_neg (show ¬decide (x.start < c.start) = true by simpa using h),
      if_neg h]
    omega

theorem cntLt_append (c : DiskChunk) (l1 l2 : List DiskChunk) :
    cntLt c (l1 ++ l2) = cntLt c l1 + cntLt c l2 := by
  unfold cntLt
  rw [List.filter_append, List.length_append]

theorem cntLt_eq_zero {c : DiskChunk} {l : List DiskChunk}
    (h : ∀ x ∈ l, ¬x.start < c.start) : cntLt c l = 0 := by
  unfold cntLt
  rw [List.filter_eq_nil_iff.mpr (by intro x hx; simpa using h x hx)]
  rfl

/-- The final `insertAt` computed by the scan: `i` when nothing is examined,
otherwise `accLen` plus the number of surviving chunks that start before
`chunk.start`. -/
theorem insertScan_ia {c : DiskChunk} (hc : chunkWF c) :
    ∀ (l : List DiskChunk) (lb : Int) (a i : Nat), overlayWFFrom lb l →
    (insertScan c l a i).2 =
      if noExam c l then i else a + cntLt c (insertScan c l a i).1 := by
  intro l
  induction l with
  | nil => intro lb a i _; rfl
  | cons other rest ih =>
      intro lb a i hwf
      obtain ⟨h1, h2, h3⟩ := hwf
      by_cases hb : c.endPos < other.start
      · rw [insertScan_noExam (show noExam c (other :: rest) from hb),
          if_pos (show noExam c (other :: rest) from hb)]
      · rw [if_neg (show ¬noExam c (other :: rest) from hb), insertScan_cons,
          if_neg hb]
        by_cases hni : c.intersects other = false
        · -- `other` does not intersect: kept, `insertAt` moves past it
          have hoe : other.endPos < c.start := by
            have := chunk_inter_none_iff.mp (intersects_false_iff.mp hni)
            unfold chunkWF at hc
            omega
          have hos : other.start < c.start := by omega
          rw [if_pos hni, if_pos hos]
          by_cases hne : noExam c rest
          · rw [insertScan_noExam hne]
            have hz : cntLt c rest = 0 :=
              cntLt_eq_zero (by
                intro x hx
                have := noExam_bound h3 hne x hx
                unfold chunkWF at hc
                omega)
            simp only [cntLt_cons, if_pos hos, hz]
          · have hih := ih _ (a + 1)
              (if other.start < c.start then a + 1 else a) h3
            rw [if_pos hos] at hih
            rw [hih, if_neg hne]
            simp only [cntLt_cons, if_pos hos]
            omega
        · rw [if_neg hni]
          have hsome0 : ¬(min c.endPos other.endPos < max c.start other.start) := by
            intro hcon
            exact hni (intersects_false_iff.mpr (chunk_inter_none_iff.mpr hcon))
          by_cases hinc : other.includedIn c
          · -- `other` deleted; it starts at or after `chunk.start`
            have hos : ¬other.start < c.start := by
              have := includedIn_true_iff.mp hinc
              omega
            rw [if_pos hinc, if_neg hos]
            by_cases hne : noExam c rest
            · rw [insertScan_noExam hne]
              have hz : cntLt c rest = 0 :=
                cntLt_eq_zero (by
                  intro x hx
                  have := noExam_bound h3 hne x hx
                  unfold chunkWF at hc
                  omega)
              show a = a + cntLt c rest
              rw [hz]
              omega
            · have hih := ih _ a (if other.start < c.start then a + 1 else a)
                h3
              rw [if_neg hos] at hih
              rw [hih, if_neg hne]
          · -- `other` cut
            rw [if_neg hinc]
            have hsome : other.intersection c =
                some (max other.start c.start, min other.endPos c.endPos) := by
              apply inter_some_iff.mpr
              constructor
              · show max other.interval.1 c.interval.1 ≤
                  min other.interval.2 c.interval.2
                simp only [DiskChunk.interval]
                omega
              · simp [DiskChunk.interval]
            have hcut := cut_eq_of_some hsome
            by_cases hos : other.start < c.start
            · rw [if_pos hos]
              have hmax : max other.start c.start = c.start := by omega
              have hlft : max other.start c.start > other.start := by omega
              by_cases hoe : c.endPos < other.endPos
              · -- two fragments; the scan then breaks at once
                have hmin : min other.endPos c.endPos = c.endPos := by omega
                have hcut2 : other.cut c =
                    [other.slice other.start (c.start - 1),
                     other.slice (c.endPos + 1) other.endPos] := by
                  rw [hcut, if_pos hlft, if_pos (by omega :
                    other.endPos > min other.endPos c.endPos)]
                  rw [hmax, hmin]
                  rfl
                have hne : noExam c rest := by
                  cases rest with
                  | nil => trivial
                  | cons y t =>
                      show c.endPos < y.start
                      have := overlayWFFrom_mem h3 (List.mem_cons_self y t)
                      omega
                rw [insertScan_noExam hne, hcut2]
                have hz : cntLt c rest = 0 :=
                  cntLt_eq_zero (by
                    intro x hx
                    have := noExam_bound h3 hne x hx
                    unfold chunkWF at hc
                    omega)
                simp only [List.cons_append, List.nil_append, cntLt_cons,
                  slice_start, if_pos hos,
                  if_neg (show ¬c.endPos + 1 < c.start by omega), hz]
              · -- only the left fragment survives
                have hmin : min other.endPos c.endPos = other.endPos := by
                  omega
                have hcut1 : other.cut c =
                    [other.slice other.start (c.start - 1)] := by
                  rw [hcut, if_pos hlft, if_neg (by omega :
                    ¬other.endPos > min other.endPos c.endPos)]
                  rw [hmax]
                  simp
                rw [hcut1]
                by_cases hne : noExam c rest
                · rw [insertScan_noExam hne]
                  have hz : cntLt c rest = 0 :=
                    cntLt_eq_zero (by
                      intro x hx
                      have := noExam_bound h3 hne x hx
                      unfold chunkWF at hc
                      omega)
                  simp only [List.singleton_append, List.length_singleton,
                    cntLt_cons, slice_start, if_pos hos, hz]
                · have hih := ih _ (a + 1)
                    (if other.start < c.start then a + 1 else a) h3
                  rw [if_pos hos] at hih
                  simp only [List.length_singleton, List.singleton_append]
                  rw [hih, if_neg hne]
                  simp only [cntLt_cons, slice_start, if_pos hos]
                  omega
            · -- `other` starts at or after `chunk.start`: only a right
              -- fragment, the scan then breaks at once
              rw [if_neg hos]
              have hoe : c.endPos < other.endPos := by
                have : ¬(c.start ≤ other.start ∧
                    other.endPos ≤ c.endPos) := by
                  intro hcon
                  exact hinc (includedIn_true_iff.mpr hcon)
                omega
              have hmin : min other.endPos c.endPos = c.endPos := by omega
              have hcut1 : other.cut c =
                  [other.slice (c.endPos + 1) other.endPos] := by
                rw [hcut, if_neg (by omega : ¬max other.start c.start >
                  other.start), if_pos (by omega :
                  other.endPos > min other.endPos c.endPos)]
                rw [hmin]
                simp
              have hne : noExam c rest := by
                cases rest with
                | nil => trivial
                | cons y t =>
                    show c.endPos < y.start
                    have := overlayWFFrom_mem h3 (List.mem_cons_self y t)
                    omega
              rw [hcut1, insertScan_noExam hne]
              have hz : cntLt c rest = 0 :=
                cntLt_eq_zero (by
                  intro x hx
                  have := noExam_bound h3 hne x hx
                  unfold chunkWF at hc
                  omega)
              simp only [List.singleton_append, List.length_singleton,
                cntLt_cons, slice_start,
                if_neg (show ¬c.endPos + 1 < c.start by omega), hz]
              omega

theorem listInsertAt_eq (n : Nat) (c : DiskChunk) (l : List DiskChunk) :
    listInsertAt n c l = l.take n ++ c :: l.drop n := by
  induction n generalizing l with
  | zero => simp [listInsertAt]
  | succ n ih =>
      cases l with
      | nil => simp [listInsertAt]
      | cons x xs => simp [listInsertAt, ih]

/-- In a well-formed list of chunks all avoiding `c`'s range, the first
`cntLt c l` chunks lie entirely before `c` and the rest entirely after it. -/
theorem cntLt_split {c : DiskChunk} (hc : chunkWF c) :
    ∀ (l : List DiskChunk) (lb : Int), overlayWFFrom lb l →
    (∀ x ∈ l, intervalIntersection c.interval x.interval = none) →
    (∀ x ∈ l.take (cntLt c l), x.endPos < c.start) ∧
    (∀ x ∈ l.drop (cntLt c l), c.endPos < x.start) := by
  intro l
  induction l with
  | nil =>
      intro lb _ _
      constructor <;> intro x hx <;> simp at hx
  | cons h t ih =>
      intro lb hwf hnone
      obtain ⟨h1, h2, h3⟩ := hwf
      have hh := chunk_inter_none_iff.mp (hnone h (by simp))
      unfold chunkWF at hc
      by_cases hlt : h.endPos < c.start
      · have hcc : cntLt c (h :: t) = cntLt c t + 1 := by
          rw [cntLt_cons, if_pos (by omega)]
          omega
        rw [hcc]
        have iht := ih _ h3 (by intro x hx; exact hnone x (by simp [hx]))
        constructor
        · intro x hx
          rw [List.take_succ_cons] at hx
          rcases List.mem_cons.mp hx with rfl | hx'
          · exact hlt
          · exact iht.1 x hx'
        · intro x hx
          rw [List.drop_succ_cons] at hx
          exact iht.2 x hx
      · have hgt : c.endPos < h.start := by omega
        have hcc : cntLt c (h :: t) = 0 := by
          rw [cntLt_cons, if_neg (by omega)]
          rw [cntLt_eq_zero]
          intro x hx
          have := overlayWFFrom_mem h3 hx
          omega
        rw [hcc]
        constructor
        · intro x hx; simp at hx
        · intro x hx
          rcases List.mem_cons.mp (by simpa using hx) with rfl | hx'
          · exact hgt
          · have := overlayWFFrom_mem h3 hx'
            omega

/-- Inserting a chunk at position `k` keeps the overlay invariant when the
first `k` chunks lie before it and the rest after it. -/
theorem overlayWFFrom_insertAt {c : DiskChunk} (hc : chunkWF c) :
    ∀ (r : List DiskChunk) (k : Nat) (lb : Int), overlayWFFrom lb r →
    lb ≤ c.start →
    (∀ x ∈ r.take k, x.endPos < c.start) →
    (∀ x ∈ r.drop k, c.endPos < x.start) →
    overlayWFFrom lb (listInsertAt k c r) := by
  intro r
  induction r with
  | nil =>
      intro k lb _ hlb _ _
      cases k <;> exact ⟨hlb, hc, trivial⟩
  | cons h t ih =>
      intro k lb hwf hlb htake hdrop
      obtain ⟨h1, h2, h3⟩ := hwf
      cases k with
      | zero =>
          refine ⟨hlb, hc, ?_⟩
          refine overlayWFFrom_retarget ⟨h1, h2, h3⟩ ?_
          intro x hx
          have := hdrop x (by simpa using hx)
          omega
      | succ k =>
          have hhd : h.endPos < c.start := htake h (by
            rw [List.take_succ_cons]; exact List.mem_cons_self _ _)
          refine ⟨h1, h2, ih k (h.endPos + 1) h3 (by omega) ?_ ?_⟩
          · intro x hx
            exact htake x (by rw [List.take_succ_cons]; exact List.mem_cons_of_mem _ hx)
          · intro x hx
            exact hdrop x (by rw [List.drop_succ_cons]; exact hx)

/-- The function `insertDiskChunk` preserves the overlay invariant, for well-formed
(non-empty) chunks, whether or not the chunk itself is inserted. -/
theorem insertDiskChunk_WF {l : List DiskChunk} {c : DiskChunk} {ins : Bool}
    {cap : Int} (hwf : OverlayWF l) (hc : chunkWF c) :
    OverlayWF (insertDiskChunk l c ins cap) := by
  unfold insertDiskChunk
  split
  · exact hwf
  · have hfrom : ∃ lb, overlayWFFrom lb l ∧ lb ≤ c.start := by
      cases l with
      | nil => exact ⟨c.start, trivial, le_refl _⟩
      | cons h t =>
          exact ⟨min h.start c.start,
            overlayWFFrom_mono (min_le_left _ _) hwf, min_le_right _ _⟩
    obtain ⟨lb, hlb, hlbc⟩ := hfrom
    have hscanwf := insertScan_wf (c := c) l lb 0 0 hlb
    split
    · show OverlayWF (listInsertAt (insertScan c l 0 0).2 c (insertScan c l 0 0).1)
      have hia := insertScan_ia hc l lb 0 0 hlb
      by_cases hne : noExam c l
      · rw [insertScan_noExam hne]
        apply @overlayWF_of_from lb
        apply overlayWFFrom_insertAt hc l 0 lb hlb hlbc
        · intro x hx; simp at hx
        · intro x hx
          exact noExam_bound hlb hne x (by simpa using hx)
      · rw [if_neg hne, Nat.zero_add] at hia
        have hnone := insertScan_noint (c := c) l lb 0 0 hlb
        have hsplit := cntLt_split hc (insertScan c l 0 0).1 lb hscanwf hnone
        rw [hia]
        apply @overlayWF_of_from lb
        exact overlayWFFrom_insertAt hc _ _ lb hscanwf hlbc hsplit.1 hsplit.2
    · exact overlayWF_of_from hscanwf

/-- The invariant in the form stated by the spec: sorted by start, chunks
non-empty, pairwise non-intersecting. -/
theorem overlayWF_props {l : List DiskChunk} (h : OverlayWF l) :
    l.Pairwise (fun a b => a.start ≤ b.start) ∧
    (∀ x ∈ l, x.start ≤ x.endPos) ∧
    l.Pairwise (fun a b => a.intersects b = false) := by
  have main : ∀ (l : List DiskChunk) (lb : Int), overlayWFFrom lb l →
      l.Pairwise (fun a b => a.start ≤ b.start) ∧
      (∀ x ∈ l, x.start ≤ x.endPos) ∧
      l.Pairwise (fun a b => a.intersects b = false) := by
    intro l
    induction l with
    | nil => intro lb _; refine ⟨.nil, ?_, .nil⟩; intro x hx; cases hx
    | cons h t ih =>
        intro lb hwf
        obtain ⟨h1, h2, h3⟩ := hwf
        obtain ⟨p1, p2, p3⟩ := ih _ h3
        refine ⟨.cons ?_ p1, ?_, .cons ?_ p3⟩
        · intro x hx
          have := overlayWFFrom_mem h3 hx
          omega
        · intro x hx
          rcases List.mem_cons.mp hx with rfl | hx'
          · exact h2
          · exact (p2 x hx')
        · intro x hx
          have := overlayWFFrom_mem h3 hx
          apply intersects_false_iff.mpr
          apply inter_none_of_lt_left
          show h.interval.2 < x.interval.1
          simp only [DiskChunk.interval]
          omega
  cases l with
  | nil => exact main [] 0 trivial
  | cons c t => exact main _ c.start h

/-- The state after `Disk.write`, spelled out. -/
theorem write_fst (st : DiskState) (b : List Nat) (bo : Nat) (len fo : Int) :
    (Disk.write st b bo len fo).1 =
      { st with
        knownChunks :=
          if st.recordWrites then
            insertDiskChunk st.knownChunks
              (.buffer fo ((b.drop bo).take len.toNat)) true st.capacity
          else
            insertDiskChunk st.knownChunks
              (.discard fo (fo + len - 1)) false st.capacity,
        physical :=
          if st.readOnly then st.physical
          else bufWrite st.physical fo ((b.drop bo).take len.toNat) } := by
  unfold Disk.write
  by_cases h : st.readOnly <;> simp [h]

theorem applyOp_WF {st : DiskState} {op : DiskOp}
    (h : OverlayWF st.knownChunks) (hop : opWF op) :
    OverlayWF (applyOp st op).knownChunks := by
  cases op with
  | write b bo len fo =>
      obtain ⟨hlen, hbo⟩ := hop
      show OverlayWF ((Disk.write st b bo len fo).1).knownChunks
      rw [write_fst]
      by_cases hrw : st.recordWrites
      · rw [if_pos hrw]
        apply insertDiskChunk_WF h
        show (DiskChunk.buffer fo ((b.drop bo).take len.toNat)).start ≤
          (DiskChunk.buffer fo ((b.drop bo).take len.toNat)).endPos
        simp only [DiskChunk.start, DiskChunk.endPos, List.length_take,
          List.length_drop]
        omega
      · rw [if_neg hrw]
        apply insertDiskChunk_WF h
        show (DiskChunk.discard fo (fo + len - 1)).start ≤
          (DiskChunk.discard fo (fo + len - 1)).endPos
        simp only [DiskChunk.start, DiskChunk.endPos]
        omega
  | discard o len =>
      have hlen : 1 ≤ len := hop
      apply insertDiskChunk_WF h
      show (DiskChunk.discard o (o + len - 1)).start ≤
        (DiskChunk.discard o (o + len - 1)).endPos
      simp only [DiskChunk.start, DiskChunk.endPos]
      omega

theorem applyOps_WF {st : DiskState} {ops : List DiskOp}
    (h : OverlayWF st.knownChunks) (hops : ∀ op ∈ ops, opWF op) :
    OverlayWF (applyOps st ops).knownChunks := by
  induction ops generalizing st with
  | nil => exact h
  | cons op ops ih =>
      exact ih (applyOp_WF h (hops op (by simp)))
        (by intro o ho; exact hops o (by simp [ho]))

/-- C1 (counterexample): a zero-length discard (`discard(5, 0)`) on an empty
overlay inserts the empty chunk `[5, 4]`, so after this sequence of public
operations a chunk with `end < start` sits in `knownChunks`: the invariant
claim fails as stated for arbitrary operation lengths. -/
theorem overlay_invariant_zero_length_cex :
    ¬(∀ x ∈ (applyOps ⟨false, false, false, true, [], List.replicate 10 0⟩
        [DiskOp.discard 5 0]).knownChunks, x.start ≤ x.endPos) := by
  decide

/-- C1 (amended): after any sequence of public writes and discards, each of
positive length (a write must actually store a non-empty byte slice), on a
disk whose overlay starts empty, `knownChunks` is sorted by `start`
ascending, every chunk satisfies `end ≥ start`, and no two chunks
intersect. -/
theorem overlay_invariant_preserved (st : DiskState) (ops : List DiskOp)
    (hempty : st.knownChunks = [])
    (hops : ∀ op ∈ ops, opWF op) :
    (applyOps st ops).knownChunks.Pairwise (fun a b => a.start ≤ b.start) ∧
    (∀ x ∈ (applyOps st ops).knownChunks, x.start ≤ x.endPos) ∧
    (applyOps st ops).knownChunks.Pairwise
      (fun a b => a.intersects b = false) := by
  have h0 : OverlayWF st.knownChunks := by rw [hempty]; trivial
  exact overlayWF_props (applyOps_WF h0 hops)

/-- Witness for `overlay_invariant_preserved` on a concrete disk and
operation sequence. -/
theorem overlay_invariant_preserved_witness :
    ((⟨true, true, false, true, [], List.replicate 100 0⟩ : DiskState).knownChunks = [] ∧
      ∀ op ∈ ([DiskOp.discard 0 100, DiskOp.write [1, 2, 3] 0 3 10] :
        List DiskOp), opWF op) ∧
    ((applyOps ⟨true, true, false, true, [], List.replicate 100 0⟩
        [DiskOp.discard 0 100, DiskOp.write [1, 2, 3] 0 3 10]).knownChunks.Pairwise
          (fun a b => a.start ≤ b.start) ∧
      (∀ x ∈ (applyOps ⟨true, true, false, true, [], List.replicate 100 0⟩
        [DiskOp.discard 0 100, DiskOp.write [1, 2, 3] 0 3 10]).knownChunks,
          x.start ≤ x.endPos) ∧
      (applyOps ⟨true, true, false, true, [], List.replicate 100 0⟩
        [DiskOp.discard 0 100, DiskOp.write [1, 2, 3] 0 3 10]).knownChunks.Pairwise
          (fun a b => a.intersects b = false)) :=
  ⟨⟨rfl, by decide⟩, overlay_invariant_preserved _ _ rfl (by decide)⟩

theorem overlayWF_exists_from {l : List DiskChunk} (h : OverlayWF l) :
    ∃ lb, overlayWFFrom lb l := by
  cases l with
  | nil => exact ⟨0, trivial⟩
  | cons c t => exact ⟨c.start, h⟩

/-- Scanning a well-formed overlay that already contains `c` deletes exactly
that occurrence and leaves `insertAt` at its position. -/
theorem insertScan_reinsert {c : DiskChunk} (hc : chunkWF c) :
    ∀ (pre suf : List DiskChunk) (lb : Int) (a i : Nat),
    overlayWFFrom lb (pre ++ c :: suf) →
    insertScan c (pre ++ c :: suf) a i = (pre ++ suf, a + pre.length) := by
  intro pre
  induction pre with
  | nil =>
      intro suf lb a i hwf
      obtain ⟨h1, h2, h3⟩ := hwf
      rw [List.nil_append, insertScan_cons]
      rw [if_neg (by unfold chunkWF at hc; omega : ¬c.endPos < c.start)]
      have hint : c.intersects c = true := by
        unfold DiskChunk.intersects DiskChunk.intersection
        have hsome : intervalIntersection c.interval c.interval =
            some (max c.interval.1 c.interval.1,
              min c.interval.2 c.interval.2) :=
          inter_some_iff.mpr ⟨by
            simp only [DiskChunk.interval, max_self, min_self]; exact h2, rfl⟩
        rw [hsome]
        rfl
      rw [if_neg (by rw [hint]; exact fun hcon => by cases hcon)]
      rw [if_pos (includedIn_true_iff.mpr ⟨le_refl _, le_refl _⟩)]
      rw [if_neg (lt_irrefl c.start)]
      have hne : noExam c suf := by
        cases suf with
        | nil => trivial
        | cons y t =>
            show c.endPos < y.start
            have := overlayWFFrom_mem h3 (List.mem_cons_self y t)
            omega
      rw [insertScan_noExam hne]
      simp
  | cons h t ih =>
      intro suf lb a i hwf
      obtain ⟨h1, h2, h3⟩ := hwf
      have hcs : h.endPos < c.start := by
        have := overlayWFFrom_mem h3 (by
          simp : c ∈ t ++ c :: suf)
        omega
      rw [List.cons_append, insertScan_cons]
      unfold chunkWF at hc
      rw [if_neg (by omega : ¬c.endPos < h.start)]
      rw [if_pos (by
        apply intersects_false_iff.mpr
        apply inter_none_of_lt_right
        show h.interval.2 < c.interval.1
        simp only [DiskChunk.interval]
        omega)]
      rw [if_pos (by omega : h.start < c.start)]
      rw [ih suf _ (a + 1) (a + 1) h3]
      simp only [List.cons_append, List.length_cons]
      have e : a + 1 + t.length = a + (t.length + 1) := by omega
      rw [e]

/-- Re-inserting a chunk already present in a well-formed overlay leaves
the overlay unchanged. -/
theorem insertDiskChunk_reinsert {pre suf : List DiskChunk} {c : DiskChunk}
    {cap : Int} (hwf : OverlayWF (pre ++ c :: suf)) (hc : chunkWF c)
    (hguard : ¬(c.start < 0 ∨ cap < c.endPos)) :
    insertDiskChunk (pre ++ c :: suf) c true cap = pre ++ c :: suf := by
  obtain ⟨lb, hlb⟩ := overlayWF_exists_from hwf
  unfold insertDiskChunk
  rw [if_neg hguard]
  show listInsertAt (insertScan c (pre ++ c :: suf) 0 0).2 c
    (insertScan c (pre ++ c :: suf) 0 0).1 = pre ++ c :: suf
  rw [insertScan_reinsert hc pre suf lb 0 0 hlb]
  show listInsertAt (0 + pre.length) c (pre ++ suf) = pre ++ c :: suf
  rw [Nat.zero_add, listInsertAt_eq, List.take_left, List.drop_left]

/-- C7 (counterexample): `discard(5, 0)` (length zero) inserts the empty
chunk `[5, 4]`; discarding again breaks at that chunk without removing it
and inserts a second copy, so two discards leave a different overlay than
one. -/
theorem discard_idempotent_cex :
    (Disk.discard (Disk.discard
        ⟨false, false, false, true, [], List.replicate 10 0⟩ 5 0) 5 0).knownChunks ≠
      (Disk.discard
        ⟨false, false, false, true, [], List.replicate 10 0⟩ 5 0).knownChunks := by
  decide

/-- C7 (amended): for every positive length `L` and every overlay satisfying
the sorted non-overlapping invariant, `discard(O, L)` twice leaves
`knownChunks` exactly as `discard(O, L)` once. -/
theorem discard_idempotent (st : DiskState) (O L : Int)
    (hwf : OverlayWF st.knownChunks) (hL : 1 ≤ L) :
    (Disk.discard (Disk.discard st O L) O L).knownChunks =
      (Disk.discard st O L).knownChunks := by
  have hc : chunkWF (DiskChunk.discard O (O + L - 1)) := by
    show O ≤ O + L - 1
    omega
  show insertDiskChunk
      (insertDiskChunk st.knownChunks (.discard O (O + L - 1)) true st.capacity)
      (.discard O (O + L - 1)) true st.capacity =
    insertDiskChunk st.knownChunks (.discard O (O + L - 1)) true st.capacity
  by_cases hguard : (DiskChunk.discard O (O + L - 1)).start < 0 ∨
      st.capacity < (DiskChunk.discard O (O + L - 1)).endPos
  · have e : ∀ m, insertDiskChunk m (.discard O (O + L - 1)) true st.capacity = m := by
      intro m
      unfold insertDiskChunk
      rw [if_pos hguard]
    rw [e, e]
  · obtain ⟨lb, hlb⟩ := overlayWF_exists_from hwf
    have h2 : insertDiskChunk st.knownChunks (.discard O (O + L - 1)) true
        st.capacity =
        ((insertScan (.discard O (O + L - 1)) st.knownChunks 0 0).1.take
          (insertScan (.discard O (O + L - 1)) st.knownChunks 0 0).2) ++
        (.discard O (O + L - 1)) ::
        ((insertScan (.discard O (O + L - 1)) st.knownChunks 0 0).1.drop
          (insertScan (.discard O (O + L - 1)) st.knownChunks 0 0).2) := by
      unfold insertDiskChunk
      rw [if_neg hguard]
      exact listInsertAt_eq _ _ _
    have h1 : OverlayWF (insertDiskChunk st.knownChunks
        (.discard O (O + L - 1)) true st.capacity) :=
      insertDiskChunk_WF hwf hc
    rw [h2] at h1 ⊢
    exact insertDiskChunk_reinsert h1 hc hguard

/-- Witness for `discard_idempotent` on a concrete state. -/
theorem discard_idempotent_witness :
    (OverlayWF (⟨false, false, false, true, [DiskChunk.buffer 2 [7]],
        List.replicate 10 0⟩ : DiskState).knownChunks ∧ (1 : Int) ≤ 3) ∧
    (Disk.discard (Disk.discard ⟨false, false, false, true,
        [DiskChunk.buffer 2 [7]], List.replicate 10 0⟩ 4 3) 4 3).knownChunks =
      (Disk.discard ⟨false, false, false, true, [DiskChunk.buffer 2 [7]],
        List.replicate 10 0⟩ 4 3).knownChunks :=
  ⟨⟨by decide, by decide⟩,
    discard_idempotent _ 4 3 (by decide) (by decide)⟩

theorem bufWrite_length (t : List Nat) (s : Int) (src : List Nat) :
    (bufWrite t s src).length = t.length := by
  induction t generalizing s with
  | nil => rfl
  | cons x ts ih => simp [bufWrite, ih]

theorem applyOp_capacity (st : DiskState) (op : DiskOp) :
    (applyOp st op).capacity = st.capacity := by
  cases op with
  | write b bo len fo =>
      show ((Disk.write st b bo len fo).1).capacity = st.capacity
      rw [write_fst]
      unfold DiskState.capacity
      by_cases h : st.readOnly <;> simp [h, bufWrite_length]
  | discard o len => rfl

theorem applyOp_recordWrites (st : DiskState) (op : DiskOp) :
    (applyOp st op).recordWrites = st.recordWrites := by
  cases op with
  | write b bo len fo =>
      show ((Disk.write st b bo len fo).1).recordWrites = st.recordWrites
      rw [write_fst]
  | discard o len => rfl

theorem applyOp_knownChunks (st : DiskState) (op : DiskOp) :
    (applyOp st op).knownChunks =
      overlayApplyOp st.capacity st.recordWrites st.knownChunks op := by
  cases op with
  | write b bo len fo =>
      show ((Disk.write st b bo len fo).1).knownChunks = _
      rw [write_fst]
      rfl
  | discard o len => rfl

/-- The overlay after `applyOps` only depends on the initial overlay, the
capacity and the `recordWrites` flag. -/
theorem applyOps_knownChunks (st : DiskState) (ops : List DiskOp) :
    (applyOps st ops).knownChunks =
      overlayApplyOps st.capacity st.recordWrites st.knownChunks ops := by
  induction ops generalizing st with
  | nil => rfl
  | cons op ops ih =>
      show (applyOps (applyOp st op) ops).knownChunks = _
      rw [ih, applyOp_capacity, applyOp_recordWrites, applyOp_knownChunks]
      rfl

theorem applyOps_capacity (st : DiskState) (ops : List DiskOp) :
    (applyOps st ops).capacity = st.capacity := by
  induction ops generalizing st with
  | nil => rfl
  | cons op ops ih =>
      show (applyOps (applyOp st op) ops).capacity = _
      rw [ih, applyOp_capacity]

theorem owd_capacity : overlappingWritesDisk.capacity = 10240 := by
  show ((List.replicate 10240 (0 : Nat)).length : Int) = 10240
  rw [List.length_replicate]
  rfl

/-- C5 (counterexample): after only the writes the claim lists (patterns at
offsets 0, 4, 8, 24 and the 2-byte write at 3), the discarded chunks are
`[16,23]` and `[32,10239]` — not `[22,23]` — and `getRanges(1)` returns
`{0,16}` and `{24,8}`, not `{0,22}` and `{24,8}`.  The claimed values only
arise after the four further writes of the scenario. -/
theorem overlapping_writes_literal_cex :
    ((getDiscardedChunks (applyOps overlappingWritesDisk
        claimedWrites).knownChunks).map DiskChunk.interval =
      [(16, 23), (32, 10239)]) ∧
    ((getDiscardedChunks (applyOps overlappingWritesDisk
        claimedWrites).knownChunks).map DiskChunk.interval ≠
      [(22, 23), (32, 10239)]) ∧
    (diskGetRanges (applyOps overlappingWritesDisk claimedWrites) 1 =
      [⟨0, 16⟩, ⟨24, 8⟩]) ∧
    (diskGetRanges (applyOps overlappingWritesDisk claimedWrites) 1 ≠
      [⟨0, 22⟩, ⟨24, 8⟩]) := by
  refine ⟨?_, ?_, ?_, ?_⟩ <;>
    [rw [applyOps_knownChunks, owd_capacity];
     rw [applyOps_knownChunks, owd_capacity];
     (unfold diskGetRanges;
      rw [applyOps_knownChunks, applyOps_capacity, owd_capacity]);
     (unfold diskGetRanges;
      rw [applyOps_knownChunks, applyOps_capacity, owd_capacity])] <;>
    decide

/-- C5 (amended): on the 10240-byte disk, after the *full*
overlapping-writes scenario (discard `[0,10239]`, the five listed writes,
then 5 bytes at offset 2, 2 bytes at 30, 8 bytes at 14 and 8 bytes at 6),
the discarded-chunk list is exactly `[22,23]`, `[32,10239]` and
`getRanges(1)` returns exactly `{offset 0, length 22}` and
`{offset 24, length 8}`. -/
theorem overlapping_writes_scenario :
    ((getDiscardedChunks (applyOps overlappingWritesDisk
        fullOverlappingWrites).knownChunks).map DiskChunk.interval =
      [(22, 23), (32, 10239)]) ∧
    diskGetRanges (applyOps overlappingWritesDisk fullOverlappingWrites) 1 =
      [⟨0, 22⟩, ⟨24, 8⟩] := by
  constructor
  · rw [applyOps_knownChunks, owd_capacity]
    decide
  · unfold diskGetRanges
    rw [applyOps_knownChunks, applyOps_capacity, owd_capacity]
    decide

theorem fdiv_neg_one {b : Int} (hb : 1 ≤ b) : Int.fdiv (-1) b = -1 := by
  rw [Int.fdiv_eq_ediv _ (by omega)]
  have h2 := Int.add_mul_ediv_left (b - 1) (-1) (show b ≠ 0 by omega)
  have h3 : b - 1 + b * -1 = -1 := by ring
  rw [h3] at h2
  rw [h2, Int.ediv_eq_zero_of_lt (by omega) (by omega)]
  omega

/-- C8 (counterexample): discarding the whole 10-byte disk leaves a
*non-empty* complement (`getNotDiscardedChunks` yields the degenerate
interval `[0, -1]`) and a *non-empty* range list (`getRanges(1)` yields one
zero-length range), contradicting "complement empty, range list empty". -/
theorem fully_discarded_cex :
    (getNotDiscardedChunks (Disk.discard
        ⟨false, false, false, true, [], List.replicate 10 0⟩ 0 10).knownChunks
      10 ≠ []) ∧
    (getRanges (Disk.discard
        ⟨false, false, false, true, [], List.replicate 10 0⟩ 0 10).knownChunks
      10 1 ≠ []) := by
  decide

/-- C8 (amended): on a disk whose whole address space `[0, capacity-1]` is
discarded, the complement walk emits the single degenerate interval
`[0, -1]`, the range list is the single zero-length range
`{offset 0, length 0}`, the mapped block count evaluates to 0 without the
empty-`reduce` `TypeError` (the sum is `some 0`, not `none`: the degenerate
interval keeps the merged block list non-empty), for every block size. -/
theorem fully_discarded_blockmap (st : DiskState) (bs : Int)
    (hempty : st.knownChunks = []) (hcap : 1 ≤ st.capacity) (hbs : 1 ≤ bs) :
    (Disk.discard st 0 st.capacity).knownChunks =
      [DiskChunk.discard 0 (st.capacity - 1)] ∧
    getNotDiscardedChunks (Disk.discard st 0 st.capacity).knownChunks
      st.capacity = [(0, -1)] ∧
    getRanges (Disk.discard st 0 st.capacity).knownChunks st.capacity bs =
      [⟨0, 0⟩] ∧
    mappedBlockCount (Disk.discard st 0 st.capacity).knownChunks
      st.capacity bs = some 0 := by
  have e1 : (Disk.discard st 0 st.capacity).knownChunks =
      [DiskChunk.discard 0 (st.capacity - 1)] := by
    show insertDiskChunk st.knownChunks
      (.discard 0 (0 + st.capacity - 1)) true st.capacity = _
    rw [hempty]
    unfold insertDiskChunk
    rw [if_neg (by
      show ¬((DiskChunk.discard 0 (0 + st.capacity - 1)).start < 0 ∨ _)
      simp only [DiskChunk.start, DiskChunk.endPos]
      omega)]
    show [DiskChunk.discard 0 (0 + st.capacity - 1)] = _
    norm_num
  refine ⟨e1, ?_, ?_, ?_⟩ <;> rw [e1]
  · unfold getNotDiscardedChunks getDiscardedChunks
    simp only [List.filter, DiskChunk.isDiscard]
    unfold getNotDiscardedChunks.go
    unfold getNotDiscardedChunks.go
    simp only [DiskChunk.start, DiskChunk.endPos]
    rw [if_neg (by omega)]
    norm_num
  · unfold getRanges getDiscardedChunks
    simp only [List.filter, DiskChunk.isDiscard]
    unfold notDiscardedIntervalsIterator
    unfold notDiscardedIntervalsIterator
    simp only [DiskChunk.start, DiskChunk.endPos]
    rw [if_neg (by omega)]
    simp only [List.map, Int.zero_fdiv, fdiv_neg_one hbs]
    norm_num [mergeIntervals, mergeGo]
    left
    rw [fdiv_neg_one hbs]
    omega
  · unfold mappedBlockCount getNotDiscardedChunks getDiscardedChunks
    simp only [List.filter, DiskChunk.isDiscard]
    unfold getNotDiscardedChunks.go
    unfold getNotDiscardedChunks.go
    simp only [DiskChunk.start, DiskChunk.endPos]
    rw [if_neg (by omega)]
    simp only [List.map, Int.zero_fdiv, fdiv_neg_one hbs]
    norm_num [mergeIntervals, mergeGo, reduceAdd]
    rw [fdiv_neg_one hbs]
    omega

/-- Witness for `fully_discarded_blockmap` on a concrete 10-byte disk with
block size 2. -/
theorem fully_discarded_blockmap_witness :
    ((⟨false, false, false, true, [], List.replicate 10 0⟩ : DiskState).knownChunks = [] ∧
      1 ≤ (⟨false, false, false, true, [], List.replicate 10 0⟩ : DiskState).capacity ∧
      (1 : Int) ≤ 2) ∧
    getRanges (Disk.discard
        (⟨false, false, false, true, [], List.replicate 10 0⟩ : DiskState) 0
        (⟨false, false, false, true, [], List.replicate 10 0⟩ : DiskState).capacity).knownChunks
      (⟨false, false, false, true, [], List.replicate 10 0⟩ : DiskState).capacity 2 =
      [⟨0, 0⟩] :=
  ⟨⟨rfl, by decide, by decide⟩,
    (fully_discarded_blockmap _ 2 rfl (by decide) (by decide)).2.2.1⟩

/-- When no (considered) chunk intersects the requested interval, the plan
is the single physical-read step covering the whole request. -/
theorem createReadPlan_no_inter {l : List DiskChunk} {dZ : Bool}
    {o len : Int}
    (h : ∀ c ∈ (if dZ then l else l.filter (fun c => !c.isDiscard)),
      intervalIntersection (o, o + len - 1) c.interval = none) :
    createReadPlan l dZ o len = [.gap (o, o + len - 1)] := by
  show (if ((if dZ then l else l.filter (fun c => !c.isDiscard)).filterMap
      (fun c => (intervalIntersection (o, o + len - 1) c.interval).map
        (fun i => c.slice i.1 i.2))).isEmpty
    then [ReadStep.gap (o, o + len - 1)]
    else planLoop (o + len - 1) o
      ((if dZ then l else l.filter (fun c => !c.isDiscard)).filterMap
        (fun c => (intervalIntersection (o, o + len - 1) c.interval).map
          (fun i => c.slice i.1 i.2)))) = [ReadStep.gap (o, o + len - 1)]
  have hnil : (if dZ then l else l.filter (fun c => !c.isDiscard)).filterMap
      (fun c => (intervalIntersection (o, o + len - 1) c.interval).map
        (fun i => c.slice i.1 i.2)) = [] := by
    apply List.filterMap_eq_nil_iff.mpr
    intro c hc
    rw [h c hc]
    rfl
  rw [hnil]
  rfl

/-- C9 (counterexample): a zero-length read (`read(buffer, 0, 0, 5)`) is not
rejected: the backend `_read` is invoked once, with length 0 at offset 5 —
no `InvalidRange` error is reported before physical I/O. -/
theorem read_invalid_range_cex :
    (Disk.read ⟨false, false, false, true, [DiskChunk.discard 0 4],
        List.replicate 10 0⟩ [] 0 0 5).calls = [(5, 0)] ∧
    ((5, 0) : Int × Int) :: [] ≠ ([] : List (Int × Int)) := by
  decide

/-- C9 (amended): read requests are not validated.  For every request of
zero or negative length — and likewise for every request whose offset lies
beyond all overlay chunks, e.g. beyond capacity — the plan is the single
physical-read gap for the whole request and the backend `_read` is invoked
exactly once with that offset and length. -/
theorem read_invalid_range_passthrough (st : DiskState) (buf : List Nat)
    (bo : Nat) (len o : Int)
    (h : len ≤ 0 ∨ ∀ c ∈ st.knownChunks, c.endPos < o) :
    (Disk.read st buf bo len o).calls = [(o, len)] := by
  have hplan : createReadPlan st.knownChunks st.discardIsZero o len =
      [.gap (o, o + len - 1)] := by
    apply createReadPlan_no_inter
    intro c hc
    have hcmem : c ∈ st.knownChunks := by
      cases hdz : st.discardIsZero with
      | true => rw [hdz] at hc; simpa using hc
      | false =>
          rw [hdz] at hc
          exact List.mem_of_mem_filter hc
    apply inter_none_iff.mpr
    show min (o + len - 1) c.interval.2 < max o c.interval.1
    rcases h with hlen | hoff
    · have : min (o + len - 1) c.interval.2 ≤ o + len - 1 := min_le_left _ _
      have : o ≤ max o c.interval.1 := le_max_left _ _
      omega
    · have := hoff c hcmem
      show min (o + len - 1) c.interval.2 < max o c.interval.1
      simp only [DiskChunk.interval]
      omega
  show (readAccordingToPlan st buf
    (createReadPlan st.knownChunks st.discardIsZero o len)).calls = _
  rw [hplan]
  show [] ++ [(o, o + len - 1 - o + 1)] = [(o, len)]
  have e : o + len - 1 - o + 1 = len := by ring
  rw [e]
  rfl

/-- Witness for `read_invalid_range_passthrough`: a zero-length read at
offset 7 issues the single physical read `(7, 0)`. -/
theorem read_invalid_range_passthrough_witness :
    ((0 : Int) ≤ 0 ∨ ∀ c ∈ (⟨false, false, false, true,
        [DiskChunk.discard 0 4], List.replicate 10 0⟩ : DiskState).knownChunks,
        c.endPos < 7) ∧
    (Disk.read ⟨false, false, false, true, [DiskChunk.discard 0 4],
        List.replicate 10 0⟩ [] 0 0 7).calls = [(7, 0)] :=
  ⟨Or.inl (by decide),
    read_invalid_range_passthrough _ [] 0 0 7 (Or.inl (by decide))⟩

/-- C10: `Disk.read` ignores its `bufferOffset` argument entirely (the
parameter is named `_bufferOffset` in the source and never used; plan
execution always starts writing at buffer offset 0, and `bytesRead` is
accumulated from 0): the result is identical for every value of
`bufferOffset`. -/
theorem read_ignores_bufferOffset (st : DiskState) (buf : List Nat)
    (b1 b2 : Nat) (len o : Int) :
    Disk.read st buf b1 len o = Disk.read st buf b2 len o := rfl

theorem overlayWFFrom_filter {lb : Int} {l : List DiskChunk}
    (p : DiskChunk → Bool) (h : overlayWFFrom lb l) :
    overlayWFFrom lb (l.filter p) := by
  induction l generalizing lb with
  | nil => exact trivial
  | cons c t ih =>
      obtain ⟨h1, h2, h3⟩ := h
      rw [List.filter_cons]
      split
      · exact ⟨h1, h2, ih h3⟩
      · exact overlayWFFrom_mono (by omega) (ih h3)

/-- The sliced intersections of a well-formed chunk list with the request
interval `[o, e]` form a slice chain from `b`, provided every chunk keeps
`max o start` at or above `b`. -/
theorem intersections_sliceChain {o e : Int} :
    ∀ (chunks : List DiskChunk) (lb b : Int), overlayWFFrom lb chunks →
    (∀ x ∈ chunks, b ≤ max o x.start) →
    sliceChain e b (chunks.filterMap
      (fun c => (intervalIntersection (o, e) c.interval).map
        (fun i => c.slice i.1 i.2))) := by
  intro chunks
  induction chunks with
  | nil => intro lb b _ _; exact trivial
  | cons c rest ih =>
      intro lb b hwf hinv
      obtain ⟨h1, h2, h3⟩ := hwf
      rw [List.filterMap_cons]
      rcases hmi : intervalIntersection (o, e) c.interval with _ | i
      · exact ih _ b h3 (by
          intro x hx
          exact hinv x (List.mem_cons_of_mem _ hx))
      · obtain ⟨hle, hi⟩ := inter_some_iff.mp hmi
        have hi1 : i.1 = max o c.interval.1 := by
          rw [hi]
        have hi2 : i.2 = min e c.interval.2 := by
          rw [hi]
        simp only [DiskChunk.interval] at hi1 hi2 hle
        have hs1 : c.start ≤ i.1 := by omega
        have hs2 : i.1 ≤ i.2 := by omega
        have hs3 : i.2 ≤ c.endPos := by omega
        have hend : (c.slice i.1 i.2).endPos = i.2 :=
          slice_endPos_exact h2 hs1 hs2 hs3
        show sliceChain e b (c.slice i.1 i.2 :: _)
        refine ⟨?_, ?_, ?_, ?_⟩
        · rw [slice_start, hi1]
          exact hinv c (List.mem_cons_self _ _)
        · rw [slice_start, hend]
          exact hs2
        · rw [hend]; omega
        · rw [hend]
          apply ih _ (i.2 + 1) h3
          intro x hx
          have := overlayWFFrom_mem h3 hx
          have : i.2 + 1 ≤ x.start := by omega
          omega

/-- The loop `planLoop` tiles the request range `[o', e]` exactly. -/
theorem planLoop_chainCovers {e : Int} :
    ∀ (l : List DiskChunk) (o' : Int), sliceChain e o' l → l ≠ [] →
    chainCovers o' e ((planLoop e o' l).map ReadStep.stepInterval) := by
  intro l
  induction l with
  | nil => intro o' _ hne; exact absurd rfl hne
  | cons c rest ih =>
      intro o' hsc _
      obtain ⟨h1, h2, h3, h4⟩ := hsc
      cases rest with
      | nil =>
          show chainCovers o' e ((planLoop e o' [c]).map ReadStep.stepInterval)
          unfold planLoop
          by_cases ho : o' < c.start
          · rw [if_pos ho]
            by_cases he : c.endPos < e
            · rw [if_pos he]
              simp only [List.map_append, List.map_cons, List.map_nil,
                List.cons_append, List.nil_append, ReadStep.stepInterval,
                DiskChunk.interval]
              exact ⟨rfl,
                by show o' ≤ c.start - 1; omega,
                by show c.start = c.start - 1 + 1; omega,
                by show c.start ≤ c.endPos; exact h2,
                by show c.endPos + 1 = c.endPos + 1; rfl,
                by show c.endPos + 1 ≤ e; omega,
                by show e + 1 = e + 1; rfl⟩
            · rw [if_neg he]
              simp only [List.map_append, List.map_cons, List.map_nil,
                List.cons_append, List.nil_append, List.append_nil,
                ReadStep.stepInterval, DiskChunk.interval]
              exact ⟨rfl,
                by show o' ≤ c.start - 1; omega,
                by show c.start = c.start - 1 + 1; omega,
                by show c.start ≤ c.endPos; exact h2,
                by show c.endPos + 1 = e + 1; omega⟩
          · rw [if_neg ho]
            by_cases he : c.endPos < e
            · rw [if_pos he]
              simp only [List.map_cons, List.map_nil, List.nil_append,
                ReadStep.stepInterval, DiskChunk.interval]
              exact ⟨by show c.start = o'; omega,
                by show c.start ≤ c.endPos; exact h2,
                by show c.endPos + 1 = c.endPos + 1; rfl,
                by show c.endPos + 1 ≤ e; omega,
                by show e + 1 = e + 1; rfl⟩
            · rw [if_neg he]
              simp only [List.map_cons, List.map_nil, List.nil_append,
                List.append_nil, ReadStep.stepInterval, DiskChunk.interval]
              exact ⟨by show c.start = o'; omega,
                by show c.start ≤ c.endPos; exact h2,
                by show c.endPos + 1 = e + 1; omega⟩
      | cons c' rest' =>
          have hrec := ih (c.endPos + 1) h4 (by simp)
          show chainCovers o' e
            ((planLoop e o' (c :: c' :: rest')).map ReadStep.stepInterval)
          unfold planLoop
          by_cases ho : o' < c.start
          · rw [if_pos ho]
            simp only [List.map_append, List.map_cons, List.map_nil,
              List.cons_append, List.nil_append, ReadStep.stepInterval,
              DiskChunk.interval]
            exact ⟨rfl,
              by show o' ≤ c.start - 1; omega,
              by show c.start = c.start - 1 + 1; omega,
              by show c.start ≤ c.endPos; exact h2,
              hrec⟩
          · rw [if_neg ho]
            simp only [List.map_cons, List.map_nil, List.nil_append,
              ReadStep.stepInterval, DiskChunk.interval]
            exact ⟨by show c.start = o'; omega,
              by show c.start ≤ c.endPos; exact h2,
              hrec⟩

theorem chainCovers_head_le {a b : Int} :
    ∀ {steps : List Ivl}, chainCovers a b steps → ∀ s ∈ steps, a ≤ s.1 := by
  intro steps
  induction steps generalizing a with
  | nil => intro _ s hs; cases hs
  | cons t rest ih =>
      intro h s hs
      obtain ⟨h1, h2, h3⟩ := h
      rcases List.mem_cons.mp hs with rfl | hs'
      · omega
      · have := ih h3 s hs'
        omega

theorem chainCovers_bound {a b : Int} :
    ∀ {steps : List Ivl}, chainCovers a b steps → a ≤ b + 1 := by
  intro steps
  induction steps generalizing a with
  | nil => intro h; have e : a = b + 1 := h; omega
  | cons t rest ih =>
      intro h
      obtain ⟨h1, h2, h3⟩ := h
      have := ih h3
      omega

theorem chainCovers_pairwise {a b : Int} :
    ∀ {steps : List Ivl}, chainCovers a b steps →
    steps.Pairwise (fun s t => s.2 < t.1) := by
  intro steps
  induction steps generalizing a with
  | nil => intro _; exact .nil
  | cons t rest ih =>
      intro h
      obtain ⟨h1, h2, h3⟩ := h
      refine .cons ?_ (ih h3)
      intro s hs
      have := chainCovers_head_le h3 s hs
      omega

theorem chainCovers_coverage {a b : Int} :
    ∀ {steps : List Ivl}, chainCovers a b steps →
    ∀ x : Int, (a ≤ x ∧ x ≤ b) ↔ ∃ s ∈ steps, s.1 ≤ x ∧ x ≤ s.2 := by
  intro steps
  induction steps generalizing a with
  | nil =>
      intro h x
      have e : a = b + 1 := h
      constructor
      · intro hx; omega
      · intro ⟨s, hs, _⟩; cases hs
  | cons t rest ih =>
      intro h x
      obtain ⟨h1, h2, h3⟩ := h
      have hbd := chainCovers_bound h3
      constructor
      · intro hx
        by_cases hxt : x ≤ t.2
        · exact ⟨t, List.mem_cons_self _ _, by omega, hxt⟩
        · obtain ⟨s, hs, hsx⟩ := (ih h3 x).mp (by omega)
          exact ⟨s, List.mem_cons_of_mem _ hs, hsx⟩
      · intro ⟨s, hs, hsx⟩
        rcases List.mem_cons.mp hs with rfl | hs'
        · omega
        · have := (ih h3 x).mpr ⟨s, hs', hsx⟩
          omega

/-- C2: for every offset, every positive length and every overlay
satisfying the sorted non-overlapping invariant, the read plan's step
intervals are pairwise disjoint and in ascending address order, together
they cover exactly the requested range `[offset, offset+length-1]`, and
when no overlay chunk intersects the requested range the plan is the single
physical-read step covering the whole request. -/
theorem createReadPlan_correct (l : List DiskChunk) (dZ : Bool)
    (o len : Int) (hwf : OverlayWF l) (hlen : 1 ≤ len) :
    ((createReadPlan l dZ o len).map ReadStep.stepInterval).Pairwise
      (fun s t => s.2 < t.1) ∧
    (∀ x : Int, (o ≤ x ∧ x ≤ o + len - 1) ↔
      ∃ s ∈ (createReadPlan l dZ o len).map ReadStep.stepInterval,
        s.1 ≤ x ∧ x ≤ s.2) ∧
    ((∀ c ∈ l, intervalIntersection (o, o + len - 1) c.interval = none) →
      createReadPlan l dZ o len = [.gap (o, o + len - 1)]) := by
  have hcc : chainCovers o (o + len - 1)
      ((createReadPlan l dZ o len).map ReadStep.stepInterval) := by
    have hwff : ∃ lb, overlayWFFrom lb
        (if dZ then l else l.filter (fun c => !c.isDiscard)) := by
      obtain ⟨lb, hlb⟩ := overlayWF_exists_from hwf
      cases dZ with
      | true => exact ⟨lb, by simpa using hlb⟩
      | false => exact ⟨lb, by simpa using overlayWFFrom_filter _ hlb⟩
    obtain ⟨lb, hlb⟩ := hwff
    have hsc := intersections_sliceChain (o := o) (e := o + len - 1)
      (if dZ then l else l.filter (fun c => !c.isDiscard)) lb o hlb
      (by intro x _; exact le_max_left _ _)
    rcases hII : (if dZ then l else l.filter (fun c => !c.isDiscard)).filterMap
        (fun c => (intervalIntersection (o, o + len - 1) c.interval).map
          (fun i => c.slice i.1 i.2)) with _ | ⟨c0, rest0⟩
    · have hplan : createReadPlan l dZ o len = [.gap (o, o + len - 1)] := by
        show (if ((if dZ then l else l.filter (fun c => !c.isDiscard)).filterMap
            (fun c => (intervalIntersection (o, o + len - 1) c.interval).map
              (fun i => c.slice i.1 i.2))).isEmpty
          then [ReadStep.gap (o, o + len - 1)]
          else planLoop (o + len - 1) o _) = _
        rw [hII]
        rfl
      rw [hplan]
      exact ⟨rfl, by show o ≤ o + len - 1; omega,
        by show o + len - 1 + 1 = o + len - 1 + 1; rfl⟩
    · have hplan : createReadPlan l dZ o len =
          planLoop (o + len - 1) o (c0 :: rest0) := by
        show (if ((if dZ then l else l.filter (fun c => !c.isDiscard)).filterMap
            (fun c => (intervalIntersection (o, o + len - 1) c.interval).map
              (fun i => c.slice i.1 i.2))).isEmpty
          then [ReadStep.gap (o, o + len - 1)]
          else planLoop (o + len - 1) o
            ((if dZ then l else l.filter (fun c => !c.isDiscard)).filterMap
              (fun c => (intervalIntersection (o, o + len - 1) c.interval).map
                (fun i => c.slice i.1 i.2)))) = _
        rw [hII]
        rfl
      rw [hplan]
      rw [hII] at hsc
      exact planLoop_chainCovers _ o hsc (by simp)
  refine ⟨chainCovers_pairwise hcc, chainCovers_coverage hcc, ?_⟩
  · intro hnone
    apply createReadPlan_no_inter
    intro c hc
    cases dZ with
    | true => exact hnone c (by simpa using hc)
    | false => exact hnone c (List.mem_of_mem_filter hc)

/-- Witness for `createReadPlan_correct` on a concrete overlay and
request. -/
theorem createReadPlan_correct_witness :
    (OverlayWF [DiskChunk.discard 2 5] ∧ (1 : Int) ≤ 10) ∧
    (((createReadPlan [DiskChunk.discard 2 5] true 0 10).map
        ReadStep.stepInterval).Pairwise (fun s t => s.2 < t.1) ∧
      (∀ x : Int, (0 ≤ x ∧ x ≤ 0 + 10 - 1) ↔
        ∃ s ∈ (createReadPlan [DiskChunk.discard 2 5] true 0 10).map
          ReadStep.stepInterval, s.1 ≤ x ∧ x ≤ s.2) ∧
      ((∀ c ∈ [DiskChunk.discard 2 5],
          intervalIntersection (0, 0 + 10 - 1) c.interval = none) →
        createReadPlan [DiskChunk.discard 2 5] true 0 10 =
          [.gap (0, 0 + 10 - 1)])) :=
  ⟨⟨by decide, by decide⟩,
    createReadPlan_correct [DiskChunk.discard 2 5] true 0 10 (by decide)
      (by decide)⟩

/-- Element-wise description of `bufWrite`. -/
theorem bufWrite_getElem (t : List Nat) (s : Int) (src : List Nat) :
    ∀ i : Nat, (bufWrite t s src)[i]? =
      if i < t.length ∧ s ≤ (i : Int) ∧ (i : Int) < s + src.length
      then some (src.getD ((i : Int) - s).toNat 0)
      else t[i]? := by
  induction t generalizing s with
  | nil =>
      intro i
      rw [if_neg (by
        intro hcon
        exact absurd hcon.1 (by simp))]
      rfl
  | cons x ts ih =>
      intro i
      cases i with
      | zero =>
          show ((if s ≤ 0 ∧ 0 < s + (src.length : Int)
              then src.getD (-s).toNat 0 else x) ::
            bufWrite ts (s - 1) src)[0]? = _
          rw [List.getElem?_cons_zero]
          by_cases hc : s ≤ (0 : Int) ∧ (0 : Int) < s + src.length
          · rw [if_pos hc,
              if_pos (⟨by simp, by push_cast; omega, by push_cast; omega⟩ :
                0 < (x :: ts).length ∧ s ≤ ((0 : Nat) : Int) ∧
                  ((0 : Nat) : Int) < s + src.length)]
            have e : (((0 : Nat) : Int) - s).toNat = (-s).toNat := by omega
            rw [e]
          · rw [if_neg hc, if_neg (by
              intro hcon
              exact hc ⟨by
                have := hcon.2.1
                push_cast at this
                omega, by
                have := hcon.2.2
                push_cast at this
                omega⟩)]
            rw [List.getElem?_cons_zero]
      | succ i =>
          show ((if s ≤ 0 ∧ 0 < s + (src.length : Int)
              then src.getD (-s).toNat 0 else x) ::
            bufWrite ts (s - 1) src)[i + 1]? = _
          rw [List.getElem?_cons_succ, ih (s - 1) i]
          by_cases hc : i < ts.length ∧ s - 1 ≤ (i : Int) ∧
              (i : Int) < s - 1 + src.length
          · rw [if_pos hc, if_pos (by
              obtain ⟨hc1, hc2, hc3⟩ := hc
              refine ⟨by simpa using hc1, by push_cast; omega,
                by push_cast; omega⟩)]
            have e : ((i : Int) - (s - 1)).toNat =
                (((i + 1 : Nat) : Int) - s).toNat := by push_cast; omega
            rw [e]
          · rw [if_neg hc, if_neg (by
              intro hcon
              obtain ⟨hcon1, hcon2, hcon3⟩ := hcon
              push_cast at hcon2 hcon3
              exact hc ⟨by simpa using hcon1, by omega, by omega⟩)]
            rw [List.getElem?_cons_succ]

/-- Writing a buffer of exactly the target's length at offset 0 replaces
the target. -/
theorem bufWrite_full {t src : List Nat} (h : src.length = t.length) :
    bufWrite t 0 src = src := by
  apply List.ext_getElem?
  intro i
  rw [bufWrite_getElem]
  by_cases hi : i < t.length
  · rw [if_pos (by push_cast; omega)]
    rw [List.getD_eq_getElem?_getD]
    have e : ((i : Int) - 0).toNat = i := by omega
    rw [e]
    have hsome : src[i]? = some (src[i]?.getD 0) := by
      rcases hx : src[i]? with _ | v
      · rw [List.getElem?_eq_none_iff] at hx
        omega
      · rfl
    rw [hsome]
    rfl
  · rw [if_neg (by
      intro hcon
      exact hi hcon.1)]
    have h1 : t[i]? = none := by rw [List.getElem?_eq_none_iff]; omega
    have h2 : src[i]? = none := by rw [List.getElem?_eq_none_iff]; omega
    rw [h1, h2]

/-- Reading back exactly the bytes just written. -/
theorem physRead_bufWrite {t src : List Nat} {s : Int} (hs : 0 ≤ s)
    (hbd : s.toNat + src.length ≤ t.length) :
    physRead (bufWrite t s src) s (src.length : Int) = src := by
  unfold physRead
  rw [if_neg (by omega)]
  apply List.ext_getElem?
  intro i
  rw [List.getElem?_take, List.getElem?_drop, bufWrite_getElem]
  by_cases hi : i < src.length
  · rw [if_pos (by omega), if_pos (by
      refine ⟨by omega, by push_cast; omega, by push_cast; omega⟩)]
    have e : (((s.toNat + i : Nat) : Int) - s).toNat = i := by push_cast; omega
    rw [e, List.getD_eq_getElem?_getD]
    have hsome : src[i]? = some (src[i]?.getD 0) := by
      rcases hx : src[i]? with _ | v
      · rw [List.getElem?_eq_none_iff] at hx; omega
      · rfl
    rw [hsome]
    rfl
  · rw [if_neg (by omega)]
    rw [List.getElem?_eq_none_iff.mpr (by omega)]

/-- In a well-formed overlay split around a chunk, everything before ends
before it and everything after starts after it. -/
theorem overlayWF_split_bounds {pre suf : List DiskChunk} {c : DiskChunk} :
    ∀ {lb : Int}, overlayWFFrom lb (pre ++ c :: suf) →
    (∀ x ∈ pre, x.endPos < c.start) ∧ (∀ x ∈ suf, c.endPos < x.start) ∧
    chunkWF c := by
  induction pre with
  | nil =>
      intro lb h
      obtain ⟨h1, h2, h3⟩ := h
      refine ⟨(by intro x hx; cases hx), ?_, h2⟩
      intro x hx
      have := overlayWFFrom_mem h3 hx
      omega
  | cons h t ih =>
      intro lb hwf
      obtain ⟨h1, h2, h3⟩ := hwf
      obtain ⟨p1, p2, p3⟩ := ih h3
      refine ⟨?_, p2, p3⟩
      intro x hx
      rcases List.mem_cons.mp hx with rfl | hx'
      · have := overlayWFFrom_mem h3 (show c ∈ t ++ c :: suf by simp)
        omega
      · exact p1 x hx'

/-- When exactly one considered chunk meets the request and the request
lies entirely inside it, the plan is the single known step for its slice. -/
theorem createReadPlan_single {l : List DiskChunk} {dZ : Bool} {o len : Int}
    {pre suf : List DiskChunk} {c0 : DiskChunk}
    (hchunks : (if dZ then l else l.filter (fun c => !c.isDiscard)) =
      pre ++ c0 :: suf)
    (hpre : ∀ x ∈ pre, intervalIntersection (o, o + len - 1) x.interval = none)
    (hsuf : ∀ x ∈ suf, intervalIntersection (o, o + len - 1) x.interval = none)
    (hwfc : chunkWF c0) (hs : c0.start ≤ o) (hlen : 1 ≤ len)
    (he : o + len - 1 ≤ c0.endPos) :
    createReadPlan l dZ o len = [.known (c0.slice o (o + len - 1))] := by
  have hinter : intervalIntersection (o, o + len - 1) c0.interval =
      some (o, o + len - 1) := by
    apply inter_some_iff.mpr
    unfold chunkWF at hwfc
    constructor
    · show max o c0.interval.1 ≤ min (o + len - 1) c0.interval.2
      simp only [DiskChunk.interval]
      omega
    · show (o, o + len - 1) = (max o c0.interval.1, min (o + len - 1) c0.interval.2)
      simp only [DiskChunk.interval]
      rw [max_eq_left hs, min_eq_left he]
  have hmap : (pre ++ c0 :: suf).filterMap
      (fun c => (intervalIntersection (o, o + len - 1) c.interval).map
        (fun i => c.slice i.1 i.2)) = [c0.slice o (o + len - 1)] := by
    rw [List.filterMap_append, List.filterMap_cons, hinter]
    rw [List.filterMap_eq_nil_iff.mpr (by
      intro x hx
      rw [hpre x hx]
      rfl)]
    rw [List.filterMap_eq_nil_iff.mpr (by
      intro x hx
      rw [hsuf x hx]
      rfl)]
    rfl
  have hslice_start : (c0.slice o (o + len - 1)).start = o := slice_start _ _ _
  have hslice_end : (c0.slice o (o + len - 1)).endPos = o + len - 1 :=
    slice_endPos_exact hwfc hs (by omega) he
  show (if ((if dZ then l else l.filter (fun c => !c.isDiscard)).filterMap
      (fun c => (intervalIntersection (o, o + len - 1) c.interval).map
        (fun i => c.slice i.1 i.2))).isEmpty
    then [ReadStep.gap (o, o + len - 1)]
    else planLoop (o + len - 1) o
      ((if dZ then l else l.filter (fun c => !c.isDiscard)).filterMap
        (fun c => (intervalIntersection (o, o + len - 1) c.interval).map
          (fun i => c.slice i.1 i.2)))) = _
  rw [hchunks, hmap]
  show planLoop (o + len - 1) o [c0.slice o (o + len - 1)] = _
  unfold planLoop
  rw [if_neg (by rw [hslice_start]; omega),
    if_neg (by rw [hslice_end]; omega)]
  rfl

/-- Executing a one-step plan consisting of a known chunk whose data
exactly fills the destination buffer. -/
theorem readPlan_single_known (st : DiskState) (buffer : List Nat)
    (d : DiskChunk) (hlen : d.data.length = buffer.length) :
    readAccordingToPlan st buffer [.known d] =
      ⟨d.data, (buffer.length : Int), st.knownChunks, []⟩ := by
  show execStep st.recordReads st.capacity st.physical
    ⟨buffer, 0, st.knownChunks, []⟩ (.known d) = _
  unfold execStep
  have e1 : min ((d.data.length : Int)) (((buffer.length : Nat) : Int) - 0) =
      (buffer.length : Int) := by omega
  show (⟨bufWrite buffer 0 (d.data.take (min ((d.data.length : Int))
      (((buffer.length : Nat) : Int) - 0)).toNat),
    0 + min ((d.data.length : Int)) (((buffer.length : Nat) : Int) - 0),
    st.knownChunks, []⟩ : ExecState) = _
  rw [e1]
  have e2 : ((buffer.length : Int)).toNat = buffer.length := rfl
  rw [e2]
  have e3 : d.data.take buffer.length = d.data := by
    apply List.take_of_length_le
    omega
  rw [e3, bufWrite_full hlen]
  have e4 : (0 : Int) + (buffer.length : Int) = (buffer.length : Int) := by
    omega
  rw [e4]

/-- Executing a one-step plan consisting of a single physical-read gap that
exactly fills the destination buffer. -/
theorem readPlan_single_gap (st : DiskState) (buffer : List Nat) (a b : Int)
    (ha : 0 ≤ a) (hlen : b - a + 1 = (buffer.length : Int))
    (hcap : a.toNat + buffer.length ≤ st.physical.length) :
    (readAccordingToPlan st buffer [.gap (a, b)]).buffer =
      physRead st.physical a (buffer.length : Int) ∧
    (readAccordingToPlan st buffer [.gap (a, b)]).offset =
      (buffer.length : Int) := by
  have hsrclen : (physRead st.physical a (buffer.length : Int)).length =
      buffer.length := by
    unfold physRead
    rw [if_neg (by omega)]
    simp only [List.length_take, List.length_drop]
    have : ((buffer.length : Int)).toNat = buffer.length := rfl
    omega
  have hexec : readAccordingToPlan st buffer [.gap (a, b)] =
      execStep st.recordReads st.capacity st.physical
        ⟨buffer, 0, st.knownChunks, []⟩ (.gap (a, b)) := rfl
  rw [hexec]
  constructor
  · show bufWrite buffer 0 (physRead st.physical a (b - a + 1)) = _
    rw [hlen, bufWrite_full hsrclen]
  · show (0 : Int) + (b - a + 1) = _
    omega

/-- C3: for a discarded region `[ds, de]` in an invariant-satisfying
overlay and any sub-range `[o, o+len-1]` of it within capacity, a read with
`discardIsZero = true` returns all zero bytes, while the same read with
`discardIsZero = false` returns the physical medium's actual bytes at that
sub-range (the discard chunk is excluded from the read plan). -/
theorem discard_read_contract (ro rw rr : Bool) (pre suf : List DiskChunk)
    (ds de : Int) (physical buffer : List Nat) (bo : Nat) (o len : Int)
    (hwf : OverlayWF (pre ++ .discard ds de :: suf))
    (hds : ds ≤ o) (hde : o + len - 1 ≤ de) (hlen : 1 ≤ len)
    (ho : 0 ≤ o) (hcap : o.toNat + len.toNat ≤ physical.length)
    (hbuf : buffer.length = len.toNat) :
    (Disk.read ⟨ro, rw, rr, true, pre ++ .discard ds de :: suf, physical⟩
        buffer bo len o).buffer = List.replicate len.toNat 0 ∧
    (Disk.read ⟨ro, rw, rr, false, pre ++ .discard ds de :: suf, physical⟩
        buffer bo len o).buffer = (physical.drop o.toNat).take len.toNat := by
  obtain ⟨lb, hlb⟩ := overlayWF_exists_from hwf
  obtain ⟨hpreB, hsufB, hwfc⟩ := overlayWF_split_bounds hlb
  have hpre : ∀ x ∈ pre,
      intervalIntersection (o, o + len - 1) x.interval = none := by
    intro x hx
    apply inter_none_iff.mpr
    show min (o + len - 1) x.interval.2 < max o x.interval.1
    have hx2 : x.endPos < ds := hpreB x hx
    simp only [DiskChunk.interval]
    omega
  have hsuf : ∀ x ∈ suf,
      intervalIntersection (o, o + len - 1) x.interval = none := by
    intro x hx
    apply inter_none_iff.mpr
    show min (o + len - 1) x.interval.2 < max o x.interval.1
    have hx1 : de < x.start := hsufB x hx
    simp only [DiskChunk.interval]
    omega
  constructor
  · -- discardIsZero = true: the plan is the sliced discard chunk
    have hplan : createReadPlan (pre ++ .discard ds de :: suf) true o len =
        [.known ((DiskChunk.discard ds de).slice o (o + len - 1))] :=
      createReadPlan_single (by simp) hpre hsuf
        (by show ds ≤ de; omega) (show (DiskChunk.discard ds de).start ≤ o from hds)
        hlen (show o + len - 1 ≤ (DiskChunk.discard ds de).endPos from hde)
    show (readAccordingToPlan
      ⟨ro, rw, rr, true, pre ++ .discard ds de :: suf, physical⟩ buffer
      (createReadPlan (pre ++ .discard ds de :: suf) true o len)).buffer = _
    rw [hplan]
    rw [readPlan_single_known _ _ _ (by
      show (List.replicate (o + len - 1 - o + 1).toNat 0).length = _
      rw [List.length_replicate, hbuf]
      omega)]
    show List.replicate (o + len - 1 - o + 1).toNat 0 = _
    have e : o + len - 1 - o + 1 = len := by ring
    rw [e]
  · -- discardIsZero = false: the discard chunk is filtered out, the plan
    -- is a single physical read
    have hplan : createReadPlan (pre ++ .discard ds de :: suf) false o len =
        [.gap (o, o + len - 1)] := by
      apply createReadPlan_no_inter
      intro c hc
      simp only [if_neg (by simp : ¬(false : Bool) = true)] at hc
      have hc' := List.mem_of_mem_filter hc
      have hcp := List.of_mem_filter hc
      rcases List.mem_append.mp hc' with hcp' | hcc
      · exact hpre c hcp'
      · rcases List.mem_cons.mp hcc with rfl | hcs
        · simp [DiskChunk.isDiscard] at hcp
        · exact hsuf c hcs
    show (readAccordingToPlan
      ⟨ro, rw, rr, false, pre ++ .discard ds de :: suf, physical⟩ buffer
      (createReadPlan (pre ++ .discard ds de :: suf) false o len)).buffer = _
    rw [hplan]
    have hgap := readPlan_single_gap
      ⟨ro, rw, rr, false, pre ++ .discard ds de :: suf, physical⟩ buffer o
      (o + len - 1) ho (by rw [hbuf]; omega) (by show o.toNat + buffer.length ≤ physical.length; rw [hbuf]; omega)
    rw [hgap.1]
    show (if o < 0 then [] else (physical.drop o.toNat).take
      ((buffer.length : Int)).toNat) = _
    rw [if_neg (by omega), hbuf]
    rfl

/-- Witness for `discard_read_contract`: overlay `[discard [0,9]]` over a
10-byte physical medium of fives, reading `[2,4]`. -/
theorem discard_read_contract_witness :
    (OverlayWF ([] ++ DiskChunk.discard 0 9 :: []) ∧ (0 : Int) ≤ 2 ∧
      (2 : Int) + 3 - 1 ≤ 9 ∧ (1 : Int) ≤ 3 ∧
      (2 : Int).toNat + (3 : Int).toNat ≤
        (List.replicate 10 (5 : Nat)).length ∧
      ([9, 9, 9] : List Nat).length = (3 : Int).toNat) ∧
    ((Disk.read ⟨false, false, false, true,
        [] ++ DiskChunk.discard 0 9 :: [], List.replicate 10 5⟩
        [9, 9, 9] 0 3 2).buffer = List.replicate (3 : Int).toNat 0 ∧
      (Disk.read ⟨false, false, false, false,
        [] ++ DiskChunk.discard 0 9 :: [], List.replicate 10 5⟩
        [9, 9, 9] 0 3 2).buffer =
        ((List.replicate 10 5).drop (2 : Int).toNat).take (3 : Int).toNat) :=
  ⟨⟨by decide, by decide, by decide, by decide, by decide, by decide⟩,
    discard_read_contract false false false [] [] 0 9 (List.replicate 10 5)
      [9, 9, 9] 0 2 3 (by decide) (by decide) (by decide) (by decide)
      (by decide) (by decide) (by decide)⟩

/-- C4 (counterexample): on a 1-byte disk (`capacity = 1`),
`write([7], 0, 1, 5)` with `recordWrites = true` silently skips the overlay
insertion (`chunk.end > capacity`), and the subsequent read of `[5, 5]`
goes to the physical medium and copies nothing, leaving the caller's buffer
unchanged (`[9]`, not `[7]`): the round-trip fails beyond capacity. -/
theorem write_read_roundtrip_cex :
    (Disk.read (Disk.write
        ⟨true, true, false, true, [], [0]⟩ [7] 0 1 5).1 [9] 0 1 5).buffer =
      [9] ∧ ([9] : List Nat) ≠ [7] := by
  decide

/-- C4 (amended): for every buffer `B` at offset `O` with `0 ≤ O` and
`O + B.length - 1 ≤ capacity`, on a disk with `recordWrites = true` whose
overlay satisfies the sorted non-overlapping invariant,
`write(B, 0, B.length, O)` followed by a read of `[O, O+B.length-1]` into a
`B.length`-byte buffer returns exactly the bytes of `B` (and
`bytesRead = B.length`), regardless of the previous overlay contents, the
physical medium's contents, and the other mode flags. -/
theorem write_read_roundtrip (ro rr dZ : Bool) (l : List DiskChunk)
    (physical B buffer : List Nat) (bo2 : Nat) (O : Int)
    (hwf : OverlayWF l) (hO : 0 ≤ O)
    (hcap : O + B.length - 1 ≤ (physical.length : Int))
    (hbuf : buffer.length = B.length) :
    (Disk.read (Disk.write ⟨ro, true, rr, dZ, l, physical⟩ B 0
        (B.length : Int) O).1 buffer bo2 (B.length : Int) O).buffer = B ∧
    (Disk.read (Disk.write ⟨ro, true, rr, dZ, l, physical⟩ B 0
        (B.length : Int) O).1 buffer bo2 (B.length : Int) O).offset =
      (B.length : Int) := by
  have hsrc : (B.drop 0).take ((B.length : Int)).toNat = B := by
    simp
  have hkc : ((Disk.write ⟨ro, true, rr, dZ, l, physical⟩ B 0
      (B.length : Int) O).1).knownChunks =
      insertDiskChunk l (.buffer O B) true (physical.length : Int) := by
    rw [write_fst]
    show insertDiskChunk l
      (.buffer O ((B.drop 0).take ((B.length : Int)).toNat)) true
      (physical.length : Int) = _
    rw [hsrc]
  by_cases hB : B = []
  · -- zero-length write: the request interval is empty, the plan is a
    -- single empty physical read
    subst hB
    have hbuf0 : buffer = [] := List.length_eq_zero.mp (by rw [hbuf]; rfl)
    subst hbuf0
    have hplan : ∀ (st : DiskState),
        createReadPlan st.knownChunks st.discardIsZero O
          (([] : List Nat).length : Int) =
        [.gap (O, O + (([] : List Nat).length : Int) - 1)] := by
      intro st
      apply createReadPlan_no_inter
      intro c _
      apply inter_none_iff.mpr
      show min (O + (([] : List Nat).length : Int) - 1) c.interval.2 <
        max O c.interval.1
      have h1 : min (O + (([] : List Nat).length : Int) - 1) c.interval.2 ≤
          O + (([] : List Nat).length : Int) - 1 := min_le_left _ _
      have h2 : O ≤ max O c.interval.1 := le_max_left _ _
      simp only [List.length_nil] at *
      omega
    constructor
    · show (readAccordingToPlan _ [] (createReadPlan _ _ O _)).buffer = _
      rw [hplan]
      rfl
    · show (readAccordingToPlan _ [] (createReadPlan _ _ O _)).offset = _
      rw [hplan]
      show (0 : Int) + (O + (([] : List Nat).length : Int) - 1 - O + 1) = _
      simp
  · -- non-empty write: the inserted chunk covers the request exactly and
    -- the plan is that single known chunk
    have hlen1 : 1 ≤ (B.length : Int) := by
      have : B.length ≠ 0 := fun h => hB (List.length_eq_zero.mp h)
      omega
    have hc0wf : chunkWF (DiskChunk.buffer O B) := by
      show O ≤ O + (B.length : Int) - 1
      omega
    have hguard : ¬((DiskChunk.buffer O B).start < 0 ∨
        (physical.length : Int) < (DiskChunk.buffer O B).endPos) := by
      show ¬(O < 0 ∨ (physical.length : Int) < O + (B.length : Int) - 1)
      omega
    obtain ⟨lb0, hlb0⟩ := overlayWF_exists_from hwf
    have hlbmin : overlayWFFrom (min lb0 ((DiskChunk.buffer O B).start)) l :=
      overlayWFFrom_mono (min_le_left _ _) hlb0
    have hins : insertDiskChunk l (.buffer O B) true (physical.length : Int) =
        listInsertAt (insertScan (.buffer O B) l 0 0).2 (.buffer O B)
          (insertScan (.buffer O B) l 0 0).1 := by
      unfold insertDiskChunk
      rw [if_neg hguard]
      rfl
    have hnone := insertScan_noint (c := .buffer O B) l _ 0 0 hlbmin
    have hsplit : insertDiskChunk l (.buffer O B) true
        (physical.length : Int) =
        ((insertScan (.buffer O B) l 0 0).1.take
          (insertScan (.buffer O B) l 0 0).2) ++ (.buffer O B) ::
        ((insertScan (.buffer O B) l 0 0).1.drop
          (insertScan (.buffer O B) l 0 0).2) := by
      rw [hins, listInsertAt_eq]
    have hslice : (DiskChunk.buffer O B).slice O (O + (B.length : Int) - 1) =
        DiskChunk.buffer O B := by
      show DiskChunk.buffer O ((B.drop (O - O).toNat).take
        ((O + (B.length : Int) - 1) - O + 1).toNat) = _
      have e1 : (O - O).toNat = 0 := by omega
      have e2 : (O + (B.length : Int) - 1) - O + 1 = (B.length : Int) := by
        ring
      rw [e1, e2]
      show DiskChunk.buffer O (B.take B.length) = _
      rw [List.take_length]
    have hpreN : ∀ x ∈ (insertScan (DiskChunk.buffer O B) l 0 0).1.take
        (insertScan (DiskChunk.buffer O B) l 0 0).2,
        intervalIntersection (O, O + (B.length : Int) - 1) x.interval =
          none := by
      intro x hx
      exact hnone x (List.take_subset _ _ hx)
    have hsufN : ∀ x ∈ (insertScan (DiskChunk.buffer O B) l 0 0).1.drop
        (insertScan (DiskChunk.buffer O B) l 0 0).2,
        intervalIntersection (O, O + (B.length : Int) - 1) x.interval =
          none := by
      intro x hx
      exact hnone x (List.drop_subset _ _ hx)
    have hplan : createReadPlan (insertDiskChunk l (DiskChunk.buffer O B)
        true (physical.length : Int)) dZ O (B.length : Int) =
        [.known (DiskChunk.buffer O B)] := by
      rw [hsplit]
      cases dZ with
      | true =>
          have hchunksT : (if (true : Bool) then
              ((insertScan (DiskChunk.buffer O B) l 0 0).1.take
                  (insertScan (DiskChunk.buffer O B) l 0 0).2 ++
                DiskChunk.buffer O B ::
                (insertScan (DiskChunk.buffer O B) l 0 0).1.drop
                  (insertScan (DiskChunk.buffer O B) l 0 0).2)
            else
              ((insertScan (DiskChunk.buffer O B) l 0 0).1.take
                  (insertScan (DiskChunk.buffer O B) l 0 0).2 ++
                DiskChunk.buffer O B ::
                (insertScan (DiskChunk.buffer O B) l 0 0).1.drop
                  (insertScan (DiskChunk.buffer O B) l 0 0).2).filter
                (fun c => !c.isDiscard)) =
              (insertScan (DiskChunk.buffer O B) l 0 0).1.take
                  (insertScan (DiskChunk.buffer O B) l 0 0).2 ++
                DiskChunk.buffer O B ::
                (insertScan (DiskChunk.buffer O B) l 0 0).1.drop
                  (insertScan (DiskChunk.buffer O B) l 0 0).2 := rfl
          have h1 := createReadPlan_single hchunksT hpreN hsufN hc0wf
            (le_refl O) hlen1 (le_refl _)
          rw [h1, hslice]
      | false =>
          have hchunks : (if (false : Bool) then
              ((insertScan (DiskChunk.buffer O B) l 0 0).1.take
                  (insertScan (DiskChunk.buffer O B) l 0 0).2 ++
                DiskChunk.buffer O B ::
                (insertScan (DiskChunk.buffer O B) l 0 0).1.drop
                  (insertScan (DiskChunk.buffer O B) l 0 0).2)
            else
              ((insertScan (DiskChunk.buffer O B) l 0 0).1.take
                  (insertScan (DiskChunk.buffer O B) l 0 0).2 ++
                DiskChunk.buffer O B ::
                (insertScan (DiskChunk.buffer O B) l 0 0).1.drop
                  (insertScan (DiskChunk.buffer O B) l 0 0).2).filter
                (fun c => !c.isDiscard)) =
              ((insertScan (DiskChunk.buffer O B) l 0 0).1.take
                  (insertScan (DiskChunk.buffer O B) l 0 0).2).filter
                (fun c => !c.isDiscard) ++
              DiskChunk.buffer O B ::
              ((insertScan (DiskChunk.buffer O B) l 0 0).1.drop
                  (insertScan (DiskChunk.buffer O B) l 0 0).2).filter
                (fun c => !c.isDiscard) := by
            show ((insertScan (DiskChunk.buffer O B) l 0 0).1.take
                  (insertScan (DiskChunk.buffer O B) l 0 0).2 ++
                DiskChunk.buffer O B ::
                (insertScan (DiskChunk.buffer O B) l 0 0).1.drop
                  (insertScan (DiskChunk.buffer O B) l 0 0).2).filter
                (fun c => !c.isDiscard) = _
            rw [List.filter_append, List.filter_cons]
            rw [if_pos (show (fun (c : DiskChunk) => !c.isDiscard)
              (DiskChunk.buffer O B) = true from rfl)]
          have h1 := createReadPlan_single hchunks
            (by
              intro x hx
              exact hpreN x (List.mem_of_mem_filter hx))
            (by
              intro x hx
              exact hsufN x (List.mem_of_mem_filter hx))
            hc0wf (le_refl O) hlen1 (le_refl _)
          rw [h1, hslice]
    have hst : (Disk.write ⟨ro, true, rr, dZ, l, physical⟩ B 0
        ((B.length : Nat) : Int) O).1 =
        ⟨ro, true, rr, dZ,
          insertDiskChunk l (DiskChunk.buffer O B) true
            (physical.length : Int),
          if ro then physical else bufWrite physical O B⟩ := by
      rw [write_fst, hsrc]
      rfl
    rw [hst]
    have hread : Disk.read
        (⟨ro, true, rr, dZ,
          insertDiskChunk l (DiskChunk.buffer O B) true
            (physical.length : Int),
          if ro then physical else bufWrite physical O B⟩ : DiskState)
        buffer bo2 (B.length : Int) O =
        readAccordingToPlan
          (⟨ro, true, rr, dZ,
            insertDiskChunk l (DiskChunk.buffer O B) true
              (physical.length : Int),
            if ro then physical else bufWrite physical O B⟩ : DiskState)
          buffer
          (createReadPlan (insertDiskChunk l (DiskChunk.buffer O B) true
            (physical.length : Int)) dZ O (B.length : Int)) := rfl
    rw [hread, hplan]
    rw [readPlan_single_known _ _ _ (by
      show B.length = buffer.length
      omega)]
    constructor
    · rfl
    · show (buffer.length : Int) = (B.length : Int)
      rw [hbuf]

/-- Witness for `write_read_roundtrip`: writing `[7, 8]` at offset 3 over a
discarded region of a 10-byte copy-on-write disk, then reading it back. -/
theorem write_read_roundtrip_witness :
    (OverlayWF [DiskChunk.discard 0 9] ∧ (0 : Int) ≤ 3 ∧
      (3 : Int) + ([7, 8] : List Nat).length - 1 ≤
        ((List.replicate 10 (0 : Nat)).length : Int) ∧
      ([1, 1] : List Nat).length = ([7, 8] : List Nat).length) ∧
    ((Disk.read (Disk.write ⟨true, true, false, true,
        [DiskChunk.discard 0 9], List.replicate 10 0⟩ [7, 8] 0
        (([7, 8] : List Nat).length : Int) 3).1 [1, 1] 0
        (([7, 8] : List Nat).length : Int) 3).buffer = [7, 8] ∧
      (Disk.read (Disk.write ⟨true, true, false, true,
        [DiskChunk.discard 0 9], List.replicate 10 0⟩ [7, 8] 0
        (([7, 8] : List Nat).length : Int) 3).1 [1, 1] 0
        (([7, 8] : List Nat).length : Int) 3).offset =
        (([7, 8] : List Nat).length : Int)) :=
  ⟨⟨by decide, by decide, by decide, by decide⟩,
    write_read_roundtrip true false true [DiskChunk.discard 0 9]
      (List.replicate 10 0) [7, 8] [1, 1] 0 3 (by decide) (by decide)
      (by decide) (by decide)⟩

/-- C6: a write with `recordWrites = false` over a range (within capacity)
that overlaps discard chunks cuts every overlapping chunk out of the
overlay without inserting anything (afterwards no chunk intersects the
written range), so a subsequent read of that range with
`discardIsZero = true` is served from the physical medium and returns the
physically written bytes rather than zeros. -/
theorem unrecorded_write_evicts_discards (rr : Bool) (l : List DiskChunk)
    (physical B buffer : List Nat) (bo2 : Nat) (O : Int)
    (hwf : OverlayWF l)
    (hdisc : ∃ d ∈ l, d.isDiscard = true ∧
      intervalIntersection (O, O + B.length - 1) d.interval ≠ none)
    (hO : 0 ≤ O) (hlen : 1 ≤ (B.length : Int))
    (hcap : O + B.length ≤ (physical.length : Int))
    (hbuf : buffer.length = B.length) :
    (∀ c ∈ ((Disk.write ⟨false, false, rr, true, l, physical⟩ B 0
        (B.length : Int) O).1).knownChunks,
      intervalIntersection (O, O + B.length - 1) c.interval = none) ∧
    (Disk.read (Disk.write ⟨false, false, rr, true, l, physical⟩ B 0
        (B.length : Int) O).1 buffer bo2 (B.length : Int) O).buffer = B := by
  have hsrc : (B.drop 0).take ((B.length : Int)).toNat = B := by simp
  have hguard : ¬((DiskChunk.discard O (O + (B.length : Int) - 1)).start < 0 ∨
      (physical.length : Int) <
        (DiskChunk.discard O (O + (B.length : Int) - 1)).endPos) := by
    show ¬(O < 0 ∨ (physical.length : Int) < O + (B.length : Int) - 1)
    omega
  have hst : (Disk.write ⟨false, false, rr, true, l, physical⟩ B 0
      ((B.length : Nat) : Int) O).1 =
      ⟨false, false, rr, true,
        insertDiskChunk l (.discard O (O + (B.length : Int) - 1)) false
          (physical.length : Int),
        bufWrite physical O B⟩ := by
    rw [write_fst, hsrc]
    rfl
  have hscan : insertDiskChunk l (.discard O (O + (B.length : Int) - 1)) false
      (physical.length : Int) =
      (insertScan (.discard O (O + (B.length : Int) - 1)) l 0 0).1 := by
    unfold insertDiskChunk
    rw [if_neg hguard]
    rfl
  obtain ⟨lb, hlb⟩ := overlayWF_exists_from hwf
  have hnone := insertScan_noint
    (c := .discard O (O + (B.length : Int) - 1)) l lb 0 0 hlb
  rw [hst]
  constructor
  · show ∀ c ∈ insertDiskChunk l (.discard O (O + (B.length : Int) - 1))
      false (physical.length : Int), _
    rw [hscan]
    intro c hc
    exact hnone c hc
  · have hplan : createReadPlan (insertDiskChunk l
        (.discard O (O + (B.length : Int) - 1)) false (physical.length : Int))
        true O (B.length : Int) = [.gap (O, O + (B.length : Int) - 1)] := by
      apply createReadPlan_no_inter
      intro c hc
      rw [hscan] at hc
      exact hnone c (by simpa using hc)
    show (readAccordingToPlan _ buffer (createReadPlan _ true O _)).buffer = _
    rw [hplan]
    have hgap := readPlan_single_gap
      (⟨false, false, rr, true,
        insertDiskChunk l (.discard O (O + (B.length : Int) - 1)) false
          (physical.length : Int),
        bufWrite physical O B⟩ : DiskState) buffer O
      (O + (B.length : Int) - 1) hO
      (by rw [hbuf]; ring)
      (by
        show O.toNat + buffer.length ≤ (bufWrite physical O B).length
        rw [bufWrite_length, hbuf]
        omega)
    rw [hgap.1]
    show physRead (bufWrite physical O B) O ((buffer.length : Nat) : Int) = B
    rw [hbuf]
    exact physRead_bufWrite hO (by omega)

/-- Witness for `unrecorded_write_evicts_discards`: writing `[4, 5, 6]` at
offset 2 on a fully discarded 10-byte read-write disk that does not record
writes, then reading the range back. -/
theorem unrecorded_write_evicts_discards_witness :
    (OverlayWF [DiskChunk.discard 0 9] ∧
      (∃ d ∈ [DiskChunk.discard 0 9], d.isDiscard = true ∧
        intervalIntersection (2, 2 + ([4, 5, 6] : List Nat).length - 1)
          d.interval ≠ none) ∧
      (0 : Int) ≤ 2 ∧ (1 : Int) ≤ ([4, 5, 6] : List Nat).length ∧
      (2 : Int) + ([4, 5, 6] : List Nat).length ≤
        ((List.replicate 10 (0 : Nat)).length : Int) ∧
      ([9, 9, 9] : List Nat).length = ([4, 5, 6] : List Nat).length) ∧
    ((∀ c ∈ ((Disk.write ⟨false, false, false, true, [DiskChunk.discard 0 9],
        List.replicate 10 0⟩ [4, 5, 6] 0
        (([4, 5, 6] : List Nat).length : Int) 2).1).knownChunks,
      intervalIntersection (2, 2 + ([4, 5, 6] : List Nat).length - 1)
        c.interval = none) ∧
    (Disk.read (Disk.write ⟨false, false, false, true,
        [DiskChunk.discard 0 9], List.replicate 10 0⟩ [4, 5, 6] 0
        (([4, 5, 6] : List Nat).length : Int) 2).1 [9, 9, 9] 0
        (([4, 5, 6] : List Nat).length : Int) 2).buffer = [4, 5, 6]) :=
  ⟨⟨by decide, by decide, by decide, by decide, by decide, by decide⟩,
    unrecorded_write_evicts_discards false [DiskChunk.discard 0 9]
      (List.replicate 10 0) [4, 5, 6] [9, 9, 9] 0 2 (by decide) (by decide)
      (by decide) (by decide) (by decide) (by decide)⟩
